import Mathlib

/-!
# Verification of the doc-analyzer privacy sanitization pipeline

Shallow embedding of the sanitization core of the `doc-analyzer` repository:

* `src/document_processor.py` — `DocumentProcessor._sanitize_content` and the
  privacy branch of `process_document`;
* `src/privacy_utils.py` — `PrivacyManager.save_single_analysis` and
  `PrivacyManager.get_privacy_report`.

The sanitizer works by applying Python `re.findall` / `re.sub` with a fixed
list of patterns per level.  We embed a small backtracking regular-expression
engine whose constructs cover exactly the constructs used by the source
patterns (character classes, greedy unbounded class repetition, optional
classes, concatenation, ordered alternation, and the `\b` word-boundary
assertion), with Python's leftmost / greedy-with-backtracking semantics.
Texts are `List Char`; the embedding matches CPython's behaviour on ASCII
text (the word-character predicate is the ASCII `[A-Za-z0-9_]`).
-/

namespace DocAnalyzer

/-- ASCII word character, as used by Python's `\b` on ASCII text. -/
def isWordChar (c : Char) : Bool := c.isAlpha || c.isDigit || c == '_'

/-- Regular-expression abstract syntax covering the constructs used by the
source patterns.  `rep p n` is the greedy `p{n,}` over a one-character class
(so `p+` is `rep p 1` and `p{2,}` is `rep p 2`); `alt` tries the left
alternative first, as Python does. -/
inductive RE : Type where
  | eps : RE
  | cls : (Char → Bool) → RE
  | rep : (Char → Bool) → Nat → RE
  | cat : RE → RE → RE
  | alt : RE → RE → RE
  | wb : RE

/-- Python `\b`: true iff exactly one of (previous character, next character)
is a word character; a missing side counts as non-word. -/
def atBoundary (prev : Option Char) (s : List Char) : Bool :=
  (match prev with | none => false | some c => isWordChar c) !=
  (match s with | [] => false | c :: _ => isWordChar c)

/-- Greedy matching of `p{min,}` in continuation-passing style.  The longest
possible run is tried first and given back one character at a time, exactly
like Python's greedy backtracking for a class repetition.  The continuation
receives the new "previous character" and the rest of the input and returns
the number of further characters consumed, or `none` on failure. -/
def mtchRep (p : Char → Bool) : Nat → Option Char → List Char →
    (Option Char → List Char → Option Nat) → Option Nat
  | min, prev, [], k => if min == 0 then k prev [] else none
  | min, prev, c :: rest, k =>
    if p c then
      match mtchRep p (min - 1) (some c) rest k with
      | some n => some (n + 1)
      | none => if min == 0 then k prev (c :: rest) else none
    else
      if min == 0 then k prev (c :: rest) else none

/-- Backtracking matcher in continuation-passing style.  `mtch r prev s k`
tries to match `r` at the start of `s` (with `prev` the character just before
`s`, for `\b`), then runs `k`; alternatives are explored in Python's order
(left alternative first, greedy repetition longest first).  Returns the total
number of characters consumed by `r` and the continuation, or `none`. -/
def mtch : RE → Option Char → List Char →
    (Option Char → List Char → Option Nat) → Option Nat
  | .eps, prev, s, k => k prev s
  | .wb, prev, s, k => if atBoundary prev s then k prev s else none
  | .cls _, _, [], _ => none
  | .cls p, _, c :: rest, k =>
    if p c then
      match k (some c) rest with
      | some n => some (n + 1)
      | none => none
    else none
  | .rep p min, prev, s, k => mtchRep p min prev s k
  | .cat a b, prev, s, k => mtch a prev s (fun p2 s2 => mtch b p2 s2 k)
  | .alt a b, prev, s, k =>
    match mtch a prev s k with
    | some n => some n
    | none => mtch b prev s k

/-- One combined pass of Python `re.findall` (match count) and `re.sub`
(replacement): scan left to right, at each position try the pattern, replace a
(non-empty) match and resume after it, otherwise move one character forward.
CPython enumerates exactly the same matches for `findall` and `sub`, so one
scan faithfully produces both results.  The fuel is the length of the input;
every step consumes at least one input character, so the fuel never runs out
when called with `fuel = s.length`. -/
def scanSub (r : RE) (repl : List Char) : Nat → Option Char → List Char →
    Nat × List Char
  | 0, _, s => (0, s)
  | fuel + 1, prev, s =>
    match s with
    | [] => (0, [])
    | c :: rest =>
      match mtch r prev (c :: rest) (fun _ _ => some 0) with
      | some (n + 1) =>
        let matched := (c :: rest).take (n + 1)
        let res := scanSub r repl fuel matched.getLast? ((c :: rest).drop (n + 1))
        (res.1 + 1, repl ++ res.2)
      | _ =>
        let res := scanSub r repl fuel (some c) rest
        (res.1, c :: res.2)

/-- `startsWithList a b`: `a` is a prefix of `b`. -/
def startsWithList : List Char → List Char → Bool
  | [], _ => true
  | _ :: _, [] => false
  | a :: as, b :: bs => a == b && startsWithList as bs

/-- `containsSub needle hay`: `needle` occurs as a contiguous substring of
`hay`. -/
def containsSub (needle : List Char) : List Char → Bool
  | [] => startsWithList needle []
  | c :: rest => startsWithList needle (c :: rest) || containsSub needle rest

/-! ## The PII categories and the removal-count record

`_sanitize_content` initialises a dictionary with the six keys below (all
zero) and overwrites the entry of each applied rule's category with the
match count of that rule. -/

/-- The six count keys of the `removed_items` dictionary, in its insertion
order. -/
inductive PiiCat : Type where
  | emails | phone_numbers | credit_cards | ssns | names | addresses
deriving DecidableEq, Fintype

/-- The `removed_items` dictionary of `_sanitize_content`. -/
structure RemovedItems where
  emails : Nat := 0
  phone_numbers : Nat := 0
  credit_cards : Nat := 0
  ssns : Nat := 0
  names : Nat := 0
  addresses : Nat := 0
deriving DecidableEq

/-- Read one entry of the count dictionary. -/
def RemovedItems.get (r : RemovedItems) : PiiCat → Nat
  | .emails => r.emails
  | .phone_numbers => r.phone_numbers
  | .credit_cards => r.credit_cards
  | .ssns => r.ssns
  | .names => r.names
  | .addresses => r.addresses

/-- Overwrite one entry of the count dictionary
(`removed_items[category] = len(matches)`). -/
def RemovedItems.set (r : RemovedItems) : PiiCat → Nat → RemovedItems
  | .emails, n => { r with emails := n }
  | .phone_numbers, n => { r with phone_numbers := n }
  | .credit_cards, n => { r with credit_cards := n }
  | .ssns, n => { r with ssns := n }
  | .names, n => { r with names := n }
  | .addresses, n => { r with addresses := n }

/-! ## The source's six regex patterns -/

/-- Python `\d` (ASCII). -/
def isDigitChar (c : Char) : Bool := c.isDigit

/-- Python `\s` (ASCII): space, tab, newline, carriage return, form feed,
vertical tab. -/
def isSpaceChar (c : Char) : Bool :=
  c == ' ' || c == '\t' || c == '\n' || c == '\r' || c == '\x0c' || c == '\x0b'

/-- The class `[\s-]` of the credit-card pattern. -/
def isSpaceDash (c : Char) : Bool := isSpaceChar c || c == '-'

/-- The class `[-.]` of the phone and SSN patterns. -/
def isDashDot (c : Char) : Bool := c == '-' || c == '.'

/-- The class `[A-Za-z0-9._%+-]` (email local part). -/
def isLocalChar (c : Char) : Bool :=
  c.isAlpha || c.isDigit || c == '.' || c == '_' || c == '%' || c == '+' || c == '-'

/-- The class `[A-Za-z0-9.-]` (email domain). -/
def isDomainChar (c : Char) : Bool :=
  c.isAlpha || c.isDigit || c == '.' || c == '-'

/-- The class `[A-Z|a-z]` (email "top-level domain"; the source class
literally contains `|`). -/
def isTldChar (c : Char) : Bool := c.isUpper || c == '|' || c.isLower

/-- The class `[A-Za-z\s]` of the address pattern. -/
def isAlphaSpace (c : Char) : Bool := c.isAlpha || isSpaceChar c

/-- A single literal character. -/
def chrRE (c : Char) : RE := .cls (fun d => d == c)

/-- Concatenation of a list of regexes. -/
def reCat (l : List RE) : RE := l.foldr RE.cat .eps

/-- `r{n}`: `n` copies of `r` in sequence. -/
def reN (r : RE) (n : Nat) : RE := reCat (List.replicate n r)

/-- `[c]?`: optional single-character class, greedy (class first). -/
def optCls (p : Char → Bool) : RE := .alt (.cls p) .eps

/-- A literal string. -/
def strRE (s : String) : RE := reCat (s.data.map chrRE)

/-- Ordered alternation, left alternative preferred (Python `A|B|...`). -/
def altList : List RE → RE
  | [] => .eps
  | [r] => r
  | r :: rest => .alt r (altList rest)

/-- `\b\d{4}[\s-]?\d{4}[\s-]?\d{4}[\s-]?\d{4}\b` -/
def creditCardRE : RE :=
  reCat [.wb, reN (.cls isDigitChar) 4, optCls isSpaceDash,
    reN (.cls isDigitChar) 4, optCls isSpaceDash,
    reN (.cls isDigitChar) 4, optCls isSpaceDash,
    reN (.cls isDigitChar) 4, .wb]

/-- `\b\d{3}[-.]?\d{3}[-.]?\d{4}\b` -/
def phoneRE : RE :=
  reCat [.wb, reN (.cls isDigitChar) 3, optCls isDashDot,
    reN (.cls isDigitChar) 3, optCls isDashDot,
    reN (.cls isDigitChar) 4, .wb]

/-- `\b[A-Za-z0-9._%+-]+@[A-Za-z0-9.-]+\.[A-Z|a-z]{2,}\b` -/
def emailRE : RE :=
  reCat [.wb, .rep isLocalChar 1, chrRE '@', .rep isDomainChar 1,
    chrRE '.', .rep isTldChar 2, .wb]

/-- `\b\d{3}[-.]?\d{2}[-.]?\d{4}\b` -/
def ssnRE : RE :=
  reCat [.wb, reN (.cls isDigitChar) 3, optCls isDashDot,
    reN (.cls isDigitChar) 2, optCls isDashDot,
    reN (.cls isDigitChar) 4, .wb]

/-- `\b[A-Z][a-z]+ [A-Z][a-z]+\b` (the source's "Simple name pattern"). -/
def nameRE : RE :=
  reCat [.wb, .cls Char.isUpper, .rep Char.isLower 1, chrRE ' ',
    .cls Char.isUpper, .rep Char.isLower 1, .wb]

/-- `\b\d+\s+[A-Za-z\s]+(?:Street|St|Avenue|Ave|Road|Rd|Boulevard|Blvd|Drive|Dr|Lane|Ln)\b` -/
def addressRE : RE :=
  reCat [.wb, .rep isDigitChar 1, .rep isSpaceChar 1, .rep isAlphaSpace 1,
    altList [strRE "Street", strRE "St", strRE "Avenue", strRE "Ave",
      strRE "Road", strRE "Rd", strRE "Boulevard", strRE "Blvd",
      strRE "Drive", strRE "Dr", strRE "Lane", strRE "Ln"], .wb]

/-- One `(pattern, replacement, category)` triple of the source's pattern
lists. -/
structure Rule where
  pattern : RE
  token : List Char
  category : PiiCat

def creditRule : Rule := ⟨creditCardRE, "[CREDIT_CARD]".data, .credit_cards⟩
def phoneRule : Rule := ⟨phoneRE, "[PHONE]".data, .phone_numbers⟩
def emailRule : Rule := ⟨emailRE, "[EMAIL]".data, .emails⟩
def ssnRule : Rule := ⟨ssnRE, "[SSN]".data, .ssns⟩
def nameRule : Rule := ⟨nameRE, "[NAME]".data, .names⟩
def addressRule : Rule := ⟨addressRE, "[ADDRESS]".data, .addresses⟩

/-- The per-level pattern lists of `_sanitize_content`, in source order:
`low` = credit card, phone; `medium` = email, phone, credit card;
`high` = email, phone, credit card, SSN, name, address; any other level
string (including `"none"`) falls into the `else` branch with an empty
list. -/
def patternsFor (level : String) : List Rule :=
  if level = "low" then [creditRule, phoneRule]
  else if level = "medium" then [emailRule, phoneRule, creditRule]
  else if level = "high" then
    [emailRule, phoneRule, creditRule, ssnRule, nameRule, addressRule]
  else []

/-- One iteration of the `for pattern, replacement, category in patterns`
loop: `matches = re.findall(...)`, `removed_items[category] = len(matches)`,
`sanitized_content = re.sub(...)`. -/
def applyRule (s : List Char) (acc : RemovedItems) (r : Rule) :
    List Char × RemovedItems :=
  let res := scanSub r.pattern r.token s.length none s
  (res.2, acc.set r.category res.1)

/-- The whole pattern loop. -/
def applyRules (rules : List Rule) (st : List Char × RemovedItems) :
    List Char × RemovedItems :=
  match rules with
  | [] => st
  | r :: rest => applyRules rest (applyRule st.1 st.2 r)

/-- The `info` dictionary returned by `_sanitize_content`. -/
structure SanitizeInfo where
  sanitization_level : String
  original_length : Nat
  sanitized_length : Nat
  removed_items : RemovedItems
deriving DecidableEq

/-- The result dictionary of `_sanitize_content`: sanitized `content` plus
`info`. -/
structure SanitizeResult where
  content : List Char
  info : SanitizeInfo
deriving DecidableEq

/-- `DocumentProcessor._sanitize_content(content, level)`. -/
def sanitizeContent (content : List Char) (level : String) : SanitizeResult :=
  let st := applyRules (patternsFor level) (content, {})
  ⟨st.1, ⟨level, content.length, st.1.length, st.2⟩⟩

/-- The privacy branch of `DocumentProcessor.process_document`: sanitization
runs only when privacy is enabled and the level is not `"none"`; otherwise
the content passes through untouched and no `sanitization_info` is
attached. -/
def processContent (enablePrivacy : Bool) (content : List Char)
    (level : String) : List Char × Option SanitizeInfo :=
  if enablePrivacy && level != "none" then
    let r := sanitizeContent content level
    (r.content, some r.info)
  else
    (content, none)

/-- The list of active categories of a level, in rule-application order. -/
def activeCats (level : String) : List PiiCat :=
  (patternsFor level).map (fun r => r.category)

/-- Second definition following the specification's words, for comparison
with the source's `patternsFor`: the spec asserts that rules are applied "in
the fixed order credit_card, phone, email, ssn, name, address", so this
resolver returns each level's active rules ordered by that fixed global
order. -/
def specClaimedPatternsFor (level : String) : List Rule :=
  if level = "low" then [creditRule, phoneRule]
  else if level = "medium" then [creditRule, phoneRule, emailRule]
  else if level = "high" then
    [creditRule, phoneRule, emailRule, ssnRule, nameRule, addressRule]
  else []

/-! ## MD5 (for the artifact-store key of `save_single_analysis`)

`save_single_analysis` keys each stored record with
`f"analysis_{hashlib.md5(filename.encode()).hexdigest()[:8]}_{now:%Y%m%d_%H%M%S}.json"`.
We implement MD5 executably on `Nat` (all words reduced mod `2^32`). -/

/-- `2^32`. -/
def M32 : Nat := 4294967296

/-- 32-bit addition. -/
def add32 (a b : Nat) : Nat := (a + b) % M32

/-- 32-bit left rotation (argument below `2^32`). -/
def rotl32 (x s : Nat) : Nat :=
  ((x <<< s) ||| (x >>> (32 - s))) &&& (M32 - 1)

/-- 32-bit complement. -/
def not32 (x : Nat) : Nat := x ^^^ (M32 - 1)

/-- MD5 round function F. -/
def mixF (b c d : Nat) : Nat := (b &&& c) ||| (not32 b &&& d)

/-- MD5 round function G. -/
def mixG (b c d : Nat) : Nat := (d &&& b) ||| (not32 d &&& c)

/-- MD5 round function H. -/
def mixH (b c d : Nat) : Nat := b ^^^ c ^^^ d

/-- MD5 round function I. -/
def mixI (b c d : Nat) : Nat := c ^^^ (b ||| not32 d)

/-- The 64 MD5 sine-derived constants `floor(abs(sin(i+1)) * 2^32)`. -/
def kTable : List Nat :=
  [3614090360, 3905402710, 606105819, 3250441966,
   4118548399, 1200080426, 2821735955, 4249261313,
   1770035416, 2336552879, 4294925233, 2304563134,
   1804603682, 4254626195, 2792965006, 1236535329,
   4129170786, 3225465664, 643717713, 3921069994,
   3593408605, 38016083, 3634488961, 3889429448,
   568446438, 3275163606, 4107603335, 1163531501,
   2850285829, 4243563512, 1735328473, 2368359562,
   4294588738, 2272392833, 1839030562, 4259657740,
   2763975236, 1272893353, 4139469664, 3200236656,
   681279174, 3936430074, 3572445317, 76029189,
   3654602809, 3873151461, 530742520, 3299628645,
   4096336452, 1126891415, 2878612391, 4237533241,
   1700485571, 2399980690, 4293915773, 2240044497,
   1873313359, 4264355552, 2734768916, 1309151649,
   4149444226, 3174756917, 718787259, 3951481745]

/-- The 64 MD5 per-round shift amounts. -/
def sTable : List Nat :=
  [7, 12, 17, 22, 7, 12, 17, 22, 7, 12, 17, 22, 7, 12, 17, 22,
   5, 9, 14, 20, 5, 9, 14, 20, 5, 9, 14, 20, 5, 9, 14, 20,
   4, 11, 16, 23, 4, 11, 16, 23, 4, 11, 16, 23, 4, 11, 16, 23,
   6, 10, 15, 21, 6, 10, 15, 21, 6, 10, 15, 21, 6, 10, 15, 21]

/-- UTF-8 encoding of one character (Python's `str.encode()`). -/
def utf8Bytes (c : Char) : List Nat :=
  let n := c.toNat
  if n < 128 then [n]
  else if n < 2048 then [192 ||| (n >>> 6), 128 ||| (n &&& 63)]
  else if n < 65536 then
    [224 ||| (n >>> 12), 128 ||| ((n >>> 6) &&& 63), 128 ||| (n &&& 63)]
  else
    [240 ||| (n >>> 18), 128 ||| ((n >>> 12) &&& 63),
     128 ||| ((n >>> 6) &&& 63), 128 ||| (n &&& 63)]

/-- UTF-8 encoding of a string. -/
def utf8Encode (s : List Char) : List Nat := (s.map utf8Bytes).flatten

/-- MD5 padding: a `0x80` byte, zeros to 56 mod 64, then the bit length as
eight little-endian bytes. -/
def md5Pad (msg : List Nat) : List Nat :=
  let L := msg.length
  let z := (120 - ((L + 1) % 64)) % 64
  let bitLen := (L * 8) % (M32 * M32)
  msg ++ [128] ++ List.replicate z 0 ++
    [bitLen &&& 255, (bitLen >>> 8) &&& 255, (bitLen >>> 16) &&& 255,
     (bitLen >>> 24) &&& 255, (bitLen >>> 32) &&& 255, (bitLen >>> 40) &&& 255,
     (bitLen >>> 48) &&& 255, (bitLen >>> 56) &&& 255]

/-- Split a byte list into 64-byte blocks (fuel-driven; callers pass a fuel
of at least the list length). -/
def chunks64 : Nat → List Nat → List (List Nat)
  | 0, _ => []
  | _ + 1, [] => []
  | f + 1, l => l.take 64 :: chunks64 f (l.drop 64)

/-- The `i`-th little-endian 32-bit word of a 64-byte block. -/
def leWord (block : List Nat) (i : Nat) : Nat :=
  block.getD (4 * i) 0 + 256 * block.getD (4 * i + 1) 0 +
    65536 * block.getD (4 * i + 2) 0 + 16777216 * block.getD (4 * i + 3) 0

/-- One of the 64 MD5 operations. -/
def md5Step (block : List Nat) (st : Nat × Nat × Nat × Nat) (i : Nat) :
    Nat × Nat × Nat × Nat :=
  let a := st.1
  let b := st.2.1
  let c := st.2.2.1
  let d := st.2.2.2
  let f :=
    if i < 16 then mixF b c d
    else if i < 32 then mixG b c d
    else if i < 48 then mixH b c d
    else mixI b c d
  let g :=
    if i < 16 then i
    else if i < 32 then (5 * i + 1) % 16
    else if i < 48 then (3 * i + 5) % 16
    else (7 * i) % 16
  let tmp := add32 (add32 (add32 a f) (kTable.getD i 0)) (leWord block g)
  (d, add32 b (rotl32 tmp (sTable.getD i 0)), b, c)

/-- Process one 64-byte block. -/
def md5Block (st : Nat × Nat × Nat × Nat) (block : List Nat) :
    Nat × Nat × Nat × Nat :=
  let r := (List.range 64).foldl (md5Step block) st
  (add32 st.1 r.1, add32 st.2.1 r.2.1, add32 st.2.2.1 r.2.2.1,
   add32 st.2.2.2 r.2.2.2)

/-- The MD5 initial state. -/
def md5Init : Nat × Nat × Nat × Nat :=
  (1732584193, 4023233417, 2562383102, 271733878)

/-- The four little-endian bytes of a 32-bit word. -/
def wordLEBytes (w : Nat) : List Nat :=
  [w &&& 255, (w >>> 8) &&& 255, (w >>> 16) &&& 255, (w >>> 24) &&& 255]

/-- Lowercase hexadecimal digit. -/
def hexDigit (n : Nat) : Char :=
  if n < 10 then Char.ofNat (48 + n) else Char.ofNat (87 + n)

/-- Two lowercase hex characters of a byte. -/
def byteHex (b : Nat) : List Char := [hexDigit (b >>> 4), hexDigit (b &&& 15)]

/-- MD5 digest of a byte message, as the usual 32-character lowercase hex
string. -/
def md5hexBytes (msg : List Nat) : List Char :=
  let padded := md5Pad msg
  let st := (chunks64 (padded.length + 1) padded).foldl md5Block md5Init
  ((wordLEBytes st.1 ++ wordLEBytes st.2.1 ++ wordLEBytes st.2.2.1 ++
      wordLEBytes st.2.2.2).map byteHex).flatten

/-- `hashlib.md5(s.encode()).hexdigest()`. -/
def md5hex (s : List Char) : List Char := md5hexBytes (utf8Encode s)

/-! ## `PrivacyManager.save_single_analysis` -/

/-- A `datetime` value as observed by `save_single_analysis`
(`datetime.now()` carries microseconds). -/
structure Timestamp where
  year : Nat
  month : Nat
  day : Nat
  hour : Nat
  minute : Nat
  second : Nat
  microsecond : Nat
deriving DecidableEq

/-- The decimal digit character of `n < 10`. -/
def digitChar (n : Nat) : Char := Char.ofNat (48 + n)

/-- Decimal digits of a natural number (fuel-driven helper). -/
def natDigitsGo : Nat → Nat → List Char → List Char
  | 0, _, acc => acc
  | f + 1, n, acc =>
    if n < 10 then digitChar n :: acc
    else natDigitsGo f (n / 10) (digitChar (n % 10) :: acc)

/-- Decimal digits of a natural number, most significant first. -/
def natDigits (n : Nat) : List Char := natDigitsGo (n + 1) n []

/-- Zero-pad on the left to width `w`. -/
def padZero (w : Nat) (l : List Char) : List Char :=
  List.replicate (w - l.length) '0' ++ l

/-- `now.strftime('%Y%m%d_%H%M%S')`: second resolution, the microsecond
component is dropped. -/
def fmtCompact (t : Timestamp) : List Char :=
  padZero 4 (natDigits t.year) ++ padZero 2 (natDigits t.month) ++
    padZero 2 (natDigits t.day) ++ ['_'] ++ padZero 2 (natDigits t.hour) ++
    padZero 2 (natDigits t.minute) ++ padZero 2 (natDigits t.second)

/-- The storage key (file name) produced by `save_single_analysis`:
`f"analysis_{hashlib.md5(filename.encode()).hexdigest()[:8]}_{timestamp}.json"`.
Only the filename is hashed, and only its first 8 hex characters are used;
the timestamp has second resolution. -/
def analysisFileName (filename : List Char) (now : Timestamp) : List Char :=
  "analysis_".data ++ (md5hex filename).take 8 ++ "_".data ++
    fmtCompact now ++ ".json".data

/-- The fields read off the `analysis` object by `save_single_analysis` via
`getattr`. -/
structure AnalysisFields where
  summary : List Char
  executive_summary : List Char
  key_themes : List (List Char)
  slide_headlines : List (List Char)
  word_count : Nat
  sentiment : List Char
deriving DecidableEq

/-- The `analysis_data` dictionary persisted by `save_single_analysis`. -/
structure AnalysisRecord where
  filename : List Char
  timestamp : Timestamp
  summary : List Char
  executive_summary : List Char
  key_themes : List (List Char)
  slide_headlines : List (List Char)
  word_count : Nat
  sentiment : List Char
  sanitization_info : Option SanitizeInfo
  privacy_protected : Bool
deriving DecidableEq

/-- `PrivacyManager.save_single_analysis(analysis, filename,
sanitization_info)` at call time `now`: returns the persisted record and
the storage file name it is written under. -/
def saveSingleAnalysis (analysis : AnalysisFields) (filename : List Char)
    (sanitization_info : Option SanitizeInfo) (now : Timestamp) :
    AnalysisRecord × List Char :=
  (⟨filename, now, analysis.summary, analysis.executive_summary,
    analysis.key_themes, analysis.slide_headlines, analysis.word_count,
    analysis.sentiment, sanitization_info, true⟩,
   analysisFileName filename now)

/-! ## `PrivacyManager.get_privacy_report` -/

/-- Python `str.title()` (helper with the "previous character was cased"
state). -/
def pyTitleGo : Bool → List Char → List Char
  | _, [] => []
  | prevAlpha, c :: rest =>
    if c.isAlpha then
      (if prevAlpha then c.toLower else c.toUpper) :: pyTitleGo true rest
    else c :: pyTitleGo false rest

/-- Python `str.title()`. -/
def pyTitle (s : List Char) : List Char := pyTitleGo false s

/-- Helper for Python's `{n:,}` format: insert `,` every three digits from
the right (fuel-driven). -/
def commaGroupGo : Nat → List Char → List Char
  | 0, l => l
  | f + 1, l =>
    if l.length ≤ 3 then l
    else commaGroupGo f (l.take (l.length - 3)) ++ ',' :: l.drop (l.length - 3)

/-- Python `f"{n:,}"` for a natural number. -/
def commaFmt (n : Nat) : List Char :=
  commaGroupGo (natDigits n).length (natDigits n)

/-- `sum(removed_items.values())`. -/
def RemovedItems.total (r : RemovedItems) : Nat :=
  r.emails + r.phone_numbers + r.credit_cards + r.ssns + r.names + r.addresses

/-- `removed_items.items()`, in the dictionary's insertion order. -/
def removedItemsList (r : RemovedItems) : List (List Char × Nat) :=
  [("emails".data, r.emails), ("phone_numbers".data, r.phone_numbers),
   ("credit_cards".data, r.credit_cards), ("ssns".data, r.ssns),
   ("names".data, r.names), ("addresses".data, r.addresses)]

/-- `item_type.replace('_', ' ')`. -/
def underscoreToSpace (s : List Char) : List Char :=
  s.map (fun c => if c == '_' then ' ' else c)

/-- One itemized line
`f"  - {item_type.replace('_', ' ').title()}: {count}\n"`. -/
def itemLine (p : List Char × Nat) : List Char :=
  "  - ".data ++ pyTitle (underscoreToSpace p.1) ++ ": ".data ++
    natDigits p.2 ++ ['\n']

/-- The `for item_type, count in removed_items.items()` loop: a line per
entry with a positive count. -/
def itemizedLoop : List (List Char × Nat) → List Char
  | [] => []
  | p :: rest => (if 0 < p.2 then itemLine p else []) ++ itemizedLoop rest

/-- The fixed header of every privacy report. -/
def reportHeader : List Char :=
  ("🔒 **Privacy Protection Report**\n\n" ++
   "✅ **Guaranteed Privacy Features:**\n" ++
   "• All processing performed locally on your computer\n" ++
   "• No data transmission to external servers\n" ++
   "• Automatic temporary file cleanup\n" ++
   "• Memory cleared after processing\n" ++
   "• Results stored locally only\n\n").data

/-- The level and length lines of the sanitization section. -/
def sanitSummary (info : SanitizeInfo) : List Char :=
  "🛡️ **Document Sanitization Applied:**\n".data ++
    "• Level: ".data ++ pyTitle info.sanitization_level.data ++ ['\n'] ++
    "• Original length: ".data ++ commaFmt info.original_length ++
    " characters\n".data ++
    "• Processed length: ".data ++ commaFmt info.sanitized_length ++
    " characters\n".data

/-- `PrivacyManager.get_privacy_report(sanitization_info)`.  An absent (or
empty, hence falsy) `sanitization_info` is modelled as `none`. -/
def getPrivacyReport (info : Option SanitizeInfo) : List Char :=
  reportHeader ++
    match info with
    | none => []
    | some i =>
      sanitSummary i ++
        (if 0 < i.removed_items.total then
          "• Total sensitive items removed: ".data ++
            natDigits i.removed_items.total ++ ['\n'] ++
            itemizedLoop (removedItemsList i.removed_items)
        else "• No sensitive patterns detected\n".data)

end DocAnalyzer

namespace DocAnalyzer

/-! ## Helper definitions and lemmas for the theorems -/

/-- `re.sub` of one rule on a text. -/
def subBy (r : Rule) (s : List Char) : List Char :=
  (scanSub r.pattern r.token s.length none s).2

/-- `len(re.findall(...))` of one rule on a text. -/
def countBy (r : Rule) (s : List Char) : Nat :=
  (scanSub r.pattern r.token s.length none s).1

/-- Declarative match relation: `Deriv r prev s p2 s2` holds iff `r` can
match a prefix of `s` (in previous-character context `prev`), leaving the
suffix `s2`, with `p2` the context for what follows (the last consumed
character, or `prev` when nothing was consumed). -/
inductive Deriv : RE → Option Char → List Char → Option Char → List Char → Prop where
  | eps : Deriv .eps prev s prev s
  | wb : atBoundary prev s = true → Deriv .wb prev s prev s
  | cls : p c = true → Deriv (.cls p) prev (c :: rest) (some c) rest
  | repStop : Deriv (.rep p 0) prev s prev s
  | repMore : p c = true → Deriv (.rep p (mn - 1)) (some c) rest p2 s2 →
      Deriv (.rep p mn) prev (c :: rest) p2 s2
  | cat : Deriv a prev s p1 s1 → Deriv b p1 s1 p2 s2 →
      Deriv (.cat a b) prev s p2 s2
  | altL : Deriv a prev s p2 s2 → Deriv (.alt a b) prev s p2 s2
  | altR : Deriv b prev s p2 s2 → Deriv (.alt a b) prev s p2 s2

/-- Word-character class of an optional previous character. -/
def classOfOpt : Option Char → Bool
  | none => false
  | some c => isWordChar c

/-- Word-character class of the first character of a text (false at the
end). -/
def headClass : List Char → Bool
  | [] => false
  | c :: _ => isWordChar c

/-- All character classes occurring in a regex satisfy `P`. -/
def ClsSat (P : Char → Bool) : RE → Prop
  | .eps => True
  | .wb => True
  | .cls p => ∀ c, p c = true → P c = true
  | .rep p _ => ∀ c, p c = true → P c = true
  | .cat a b => ClsSat P a ∧ ClsSat P b
  | .alt a b => ClsSat P a ∧ ClsSat P b

/-- `r` matches nowhere at the start of `s` in context `prev`. -/
def NoMatch (r : RE) (prev : Option Char) (s : List Char) : Prop :=
  ∀ p2 s2, ¬ Deriv r prev s p2 s2

/-- `r` matches at no position of `s` (each position's context being the
preceding character; `prev` is the context of the first). -/
def NoMatchList (r : RE) : Option Char → List Char → Prop
  | _, [] => True
  | prev, c :: rest => NoMatch r prev (c :: rest) ∧ NoMatchList r (some c) rest

/-- An element of a concatenation whose every match consumes a `W`
character. -/
def ElemWitness (W : Char → Bool) (e : RE) : Prop :=
  ∀ {prev s p2 s2}, Deriv e prev s p2 s2 →
    ∃ u, s = u ++ s2 ∧ ∃ c ∈ u, W c = true

/-- Characters that every rule's match must contain at least one of: a
digit, `@`, or a lowercase letter.  No replacement token contains any. -/
def wChar (c : Char) : Bool := c.isDigit || c == '@' || c.isLower

/-- Characters that are not square brackets; every class of every rule
accepts only such characters, while every replacement token is
bracket-delimited. -/
def noBrk (c : Char) : Bool := !(c == '[') && !(c == ']')

/-- The facts about a rule's pattern that the no-rematch argument uses. -/
structure RuleFacts (re : RE) : Prop where
  leading : ∀ {prev s p2 s2}, Deriv re prev s p2 s2 → atBoundary prev s = true
  trailing : ∀ {prev s p2 s2}, Deriv re prev s p2 s2 → atBoundary p2 s2 = true
  witness : ∀ {prev s p2 s2}, Deriv re prev s p2 s2 →
    ∃ u, s = u ++ s2 ∧ ∃ c ∈ u, wChar c = true
  brackets : ClsSat noBrk re

/-- The facts about a replacement token that the no-rematch argument uses. -/
structure TokenFacts (tok : List Char) : Prop where
  shape : ∃ mid, tok = '[' :: mid ++ [']']
  noW : ∀ c ∈ tok, wChar c = false

/-- The always-succeeding continuation used for a top-level match attempt. -/
def accept0 : Option Char → List Char → Option Nat := fun _ _ => some 0

/-- The structure of one `re.sub` scan: at each position either the pattern
fails and the character is copied, or a non-empty match is consumed and the
token emitted, continuing in the context of the match's last character. -/
inductive ScanRel (rr : RE) (tok : List Char) :
    Option Char → List Char → List Char → Prop where
  | nil : ScanRel rr tok prev [] []
  | skip : mtch rr prev (c :: rest) accept0 = none →
      ScanRel rr tok (some c) rest O →
      ScanRel rr tok prev (c :: rest) (c :: O)
  | mtc : Deriv rr prev s pm srest → s = mseg ++ srest → mseg ≠ [] →
      ScanRel rr tok pm srest O →
      ScanRel rr tok prev s (tok ++ O)

/-- The context after a run of copied characters. -/
def ctxAfter (g : List Char) (prevS : Option Char) : Option Char :=
  match g.getLast? with
  | some c => some c
  | none => prevS


theorem applyRules_append (l1 l2 : List Rule) (st : List Char × RemovedItems) :
    applyRules (l1 ++ l2) st = applyRules l2 (applyRules l1 st) := by
  induction l1 generalizing st with
  | nil => rfl
  | cons r rest ih =>
    simp only [List.cons_append, applyRules]
    exact ih _

theorem itemizedLoop_eq_filter (l : List (List Char × Nat)) :
    itemizedLoop l = ((l.filter (fun p => 0 < p.2)).map itemLine).flatten := by
  induction l with
  | nil => rfl
  | cons p rest ih =>
    by_cases h : 0 < p.2
    · simp [itemizedLoop, List.filter, h, ih]
    · simp [itemizedLoop, List.filter, h, ih]

end DocAnalyzer

namespace DocAnalyzer

/-! ## Claim C1 -/

/-- C1 counterexample: sanitizing
`"Contact me at jane@example.com or 555-123-4567"` at level `medium` produces
a redacted text that does NOT contain `[EMAIL_REDACTED]` or
`[PHONE_REDACTED]` — the source's replacement tokens are `[EMAIL]` and
`[PHONE]`, so the claim's token names are wrong. -/
theorem c1_redacted_tokens_counterexample :
    containsSub "[EMAIL_REDACTED]".data
      (sanitizeContent "Contact me at jane@example.com or 555-123-4567".data
        "medium").content = false ∧
    containsSub "[PHONE_REDACTED]".data
      (sanitizeContent "Contact me at jane@example.com or 555-123-4567".data
        "medium").content = false := by decide

/-- C1 (amended): sanitizing
`"Contact me at jane@example.com or 555-123-4567"` at level `medium` yields a
redacted text containing the source's replacement tokens `[EMAIL]` and
`[PHONE]` (namely `"Contact me at [EMAIL] or [PHONE]"`), with removal counts
exactly one email, one phone number, and zero for every other category. -/
theorem c1_scenario_medium :
    containsSub "[EMAIL]".data
      (sanitizeContent "Contact me at jane@example.com or 555-123-4567".data
        "medium").content = true ∧
    containsSub "[PHONE]".data
      (sanitizeContent "Contact me at jane@example.com or 555-123-4567".data
        "medium").content = true ∧
    (sanitizeContent "Contact me at jane@example.com or 555-123-4567".data
      "medium").content = "Contact me at [EMAIL] or [PHONE]".data ∧
    (sanitizeContent "Contact me at jane@example.com or 555-123-4567".data
      "medium").info.removed_items = ⟨1, 1, 0, 0, 0, 0⟩ := by decide

/-! ## Claim C2 -/

/-- C2 counterexample: the `high`-level name rule is not a frequency pass and
neither the address nor the ZIP code of the spec's Scenario 3 is redacted.
Concretely: (a) in `"Alice met Alice"` the capitalized 5-letter token `Alice`
occurs twice, yet sanitization at `high` changes nothing and counts zero
names; (b) sanitizing
`"John Smith met John Smith at 123 Main Street, 90210"` at `high` leaves the
ZIP `90210` in the output, emits no `[ADDRESS]` token, and counts zero
addresses. -/
theorem c2_name_frequency_counterexample :
    (sanitizeContent "Alice met Alice".data "high").content
      = "Alice met Alice".data ∧
    (sanitizeContent "Alice met Alice".data "high").info.removed_items.names
      = 0 ∧
    containsSub "90210".data
      (sanitizeContent
        "John Smith met John Smith at 123 Main Street, 90210".data
        "high").content = true ∧
    containsSub "[ADDRESS]".data
      (sanitizeContent
        "John Smith met John Smith at 123 Main Street, 90210".data
        "high").content = false ∧
    (sanitizeContent
      "John Smith met John Smith at 123 Main Street, 90210".data
      "high").info.removed_items.addresses = 0 := by decide

/-- C2 (amended): at level `high` the name rule is a single regex pass
replacing each occurrence of two adjacent capitalized words
(`\b[A-Z][a-z]+ [A-Z][a-z]+\b`), with no document-frequency analysis.
Sanitizing `"John Smith met John Smith at 123 Main Street, 90210"` at `high`
yields `"[NAME] met [NAME] at 123 [NAME], 90210"`: both `John Smith`
occurrences and also `Main Street` are replaced by the name rule (name count
3); the address rule then no longer matches (address count 0), and the ZIP
code is left unchanged. -/
theorem c2_scenario_high :
    sanitizeContent "John Smith met John Smith at 123 Main Street, 90210".data
      "high" =
      ⟨"[NAME] met [NAME] at 123 [NAME], 90210".data,
        ⟨"high", 51, 38, ⟨0, 0, 0, 0, 3, 0⟩⟩⟩ := by decide

/-! ## Claim C3 -/

/-- C3: the per-level rule sets are nested.  `none` activates no rules (and
`process_document` passes content through untouched); `low` activates exactly
the credit-card and phone categories; `medium` exactly the `low` set plus
email; `high` exactly the `medium` set plus SSN, name and address; and every
category active at a level stays active at every higher level. -/
theorem c3_policy_nesting :
    activeCats "none" = [] ∧
    (∀ (e : Bool) (T : List Char), processContent e T "none" = (T, none)) ∧
    (∀ c : PiiCat, c ∈ activeCats "low" ↔
      (c = .credit_cards ∨ c = .phone_numbers)) ∧
    (∀ c : PiiCat, c ∈ activeCats "medium" ↔
      (c ∈ activeCats "low" ∨ c = .emails)) ∧
    (∀ c : PiiCat, c ∈ activeCats "high" ↔
      (c ∈ activeCats "medium" ∨ c = .ssns ∨ c = .names ∨ c = .addresses)) ∧
    (∀ c : PiiCat, c ∈ activeCats "low" → c ∈ activeCats "medium") ∧
    (∀ c : PiiCat, c ∈ activeCats "medium" → c ∈ activeCats "high") := by
  refine ⟨rfl, ?_, ?_, ?_, ?_, ?_, ?_⟩
  · intro e T; cases e <;> rfl
  all_goals decide

end DocAnalyzer

namespace DocAnalyzer

/-! ## Claim C4 -/

/-- C4 counterexample: the per-category counts are not componentwise
monotone from `low` to `medium`.  For `"555-123-4567@x.com"` the phone rule
fires at `low` (one phone number), but at `medium` the email rule runs first
and absorbs the digits into `[EMAIL]`, so the phone count drops to zero. -/
theorem c4_monotonicity_counterexample :
    (sanitizeContent "555-123-4567@x.com".data
      "low").info.removed_items.phone_numbers = 1 ∧
    (sanitizeContent "555-123-4567@x.com".data
      "medium").info.removed_items.phone_numbers = 0 ∧
    (sanitizeContent "555-123-4567@x.com".data
      "medium").info.removed_items.emails = 1 := by decide

/-- C4 (amended): for every text, every count at level `none` is zero (hence
at most the corresponding count at every level), and the counts at `medium`
are componentwise at most the counts at `high` (the `high` pipeline runs
exactly the `medium` rules first, in the same order, then adds the SSN, name
and address rules, which touch only their own categories).  The low-to-medium
comparison of the original claim is false and is dropped. -/
theorem c4_count_monotonicity (T : List Char) (c : PiiCat) :
    (sanitizeContent T "none").info.removed_items.get c = 0 ∧
    (sanitizeContent T "none").info.removed_items.get c ≤
      (sanitizeContent T "low").info.removed_items.get c ∧
    (sanitizeContent T "medium").info.removed_items.get c ≤
      (sanitizeContent T "high").info.removed_items.get c := by
  have h0 : (sanitizeContent T "none").info.removed_items.get c = 0 := by
    cases c <;> rfl
  refine ⟨h0, by rw [h0]; exact Nat.zero_le _, ?_⟩
  have hsplit : patternsFor "high" =
      patternsFor "medium" ++ [ssnRule, nameRule, addressRule] := rfl
  have hmid : (sanitizeContent T "medium").info.removed_items =
      (applyRules (patternsFor "medium") (T, {})).2 := rfl
  have hhigh : (sanitizeContent T "high").info.removed_items =
      (applyRules [ssnRule, nameRule, addressRule]
        (applyRules (patternsFor "medium") (T, {}))).2 := by
    have : (sanitizeContent T "high").info.removed_items =
        (applyRules (patternsFor "high") (T, {})).2 := rfl
    rw [this, hsplit, applyRules_append]
  rw [hmid, hhigh]
  have hssns : (applyRules (patternsFor "medium") (T, ({} : RemovedItems))).2.ssns = 0 := rfl
  have hnames : (applyRules (patternsFor "medium") (T, ({} : RemovedItems))).2.names = 0 := rfl
  have haddr : (applyRules (patternsFor "medium") (T, ({} : RemovedItems))).2.addresses = 0 := rfl
  generalize hst : applyRules (patternsFor "medium") (T, ({} : RemovedItems)) = st at hssns hnames haddr ⊢
  cases c
  · exact Nat.le_refl _
  · exact Nat.le_refl _
  · exact Nat.le_refl _
  · rw [show (applyRules [ssnRule, nameRule, addressRule] st).2.get .ssns =
      countBy ssnRule st.1 from rfl, show st.2.get .ssns = st.2.ssns from rfl, hssns]
    exact Nat.zero_le _
  · rw [show st.2.get .names = st.2.names from rfl, hnames]
    exact Nat.zero_le _
  · rw [show st.2.get .addresses = st.2.addresses from rfl, haddr]
    exact Nat.zero_le _

/-! ## Claim C5 -/

/-- C5 counterexample: the rules are not applied in the claimed fixed order
credit_card, phone, email at level `medium` — the source applies email first.
Under the claimed order, sanitizing `"555-123-4567@x.com"` at `medium` would
count one phone number and zero emails (the phone rule would consume the
digits before the email rule runs); the source counts one email and zero
phone numbers. -/
theorem c5_rule_order_counterexample :
    (applyRules (specClaimedPatternsFor "medium")
      ("555-123-4567@x.com".data, {})).2.phone_numbers = 1 ∧
    (applyRules (specClaimedPatternsFor "medium")
      ("555-123-4567@x.com".data, {})).2.emails = 0 ∧
    (sanitizeContent "555-123-4567@x.com".data
      "medium").info.removed_items.phone_numbers = 0 ∧
    (sanitizeContent "555-123-4567@x.com".data
      "medium").info.removed_items.emails = 1 := by decide

/-- C5 (amended): for every text and level the active rules are applied
sequentially, each rule counting and substituting its matches in the text as
already transformed by the earlier rules — but in the per-level source
order: credit_card then phone at `low`; email, phone, credit_card at
`medium`; email, phone, credit_card, ssn, name, address at `high` (the email
rule precedes the numeric rules at `medium` and `high`; the name and address
heuristics do come last). -/
theorem c5_sequential_application (T : List Char) :
    ((sanitizeContent T "low").content = subBy phoneRule (subBy creditRule T) ∧
      (sanitizeContent T "low").info.removed_items =
        ⟨0, countBy phoneRule (subBy creditRule T), countBy creditRule T,
          0, 0, 0⟩) ∧
    ((sanitizeContent T "medium").content =
        subBy creditRule (subBy phoneRule (subBy emailRule T)) ∧
      (sanitizeContent T "medium").info.removed_items =
        ⟨countBy emailRule T, countBy phoneRule (subBy emailRule T),
          countBy creditRule (subBy phoneRule (subBy emailRule T)),
          0, 0, 0⟩) ∧
    ((sanitizeContent T "high").content =
        subBy addressRule (subBy nameRule (subBy ssnRule (subBy creditRule
          (subBy phoneRule (subBy emailRule T))))) ∧
      (sanitizeContent T "high").info.removed_items =
        ⟨countBy emailRule T,
          countBy phoneRule (subBy emailRule T),
          countBy creditRule (subBy phoneRule (subBy emailRule T)),
          countBy ssnRule (subBy creditRule (subBy phoneRule
            (subBy emailRule T))),
          countBy nameRule (subBy ssnRule (subBy creditRule (subBy phoneRule
            (subBy emailRule T)))),
          countBy addressRule (subBy nameRule (subBy ssnRule (subBy creditRule
            (subBy phoneRule (subBy emailRule T)))))⟩) :=
  ⟨⟨rfl, rfl⟩, ⟨rfl, rfl⟩, ⟨rfl, rfl⟩⟩

/-! ## Claim C6 -/

/-- C6 counterexample: an unknown level string does not fail — sanitization
succeeds silently as a no-op.  With level `"banana"` the text (which even
contains an email address and a phone number) is returned unchanged with all
counts zero, and no `InvalidPolicyLevel` error exists anywhere in the
source. -/
theorem c6_unknown_level_counterexample :
    sanitizeContent "jane@example.com 555-123-4567".data "banana" =
      ⟨"jane@example.com 555-123-4567".data,
        ⟨"banana", 29, 29, ⟨0, 0, 0, 0, 0, 0⟩⟩⟩ := by decide

/-- C6 (amended): for every level string outside `{low, medium, high}`
(including `"none"` and arbitrary unknown strings), `_sanitize_content`
succeeds and is a pass-through: the `else` branch selects an empty pattern
list, so the content is returned unchanged and every removal count is zero.
No `InvalidPolicyLevel` (or any other) error is raised. -/
theorem c6_unknown_level_noop (T : List Char) (level : String)
    (h1 : level ≠ "low") (h2 : level ≠ "medium") (h3 : level ≠ "high") :
    sanitizeContent T level = ⟨T, ⟨level, T.length, T.length, {}⟩⟩ := by
  have hp : patternsFor level = [] := by
    rw [patternsFor, if_neg h1, if_neg h2, if_neg h3]
  rw [sanitizeContent, hp]
  rfl

/-- Witness for C6: the amended theorem applied at the concrete unknown
level `"banana"`. -/
theorem c6_unknown_level_noop_witness :
    ("banana" : String) ≠ "low" ∧ ("banana" : String) ≠ "medium" ∧
    ("banana" : String) ≠ "high" ∧
    sanitizeContent "some text".data "banana" =
      ⟨"some text".data, ⟨"banana", 9, 9, {}⟩⟩ :=
  ⟨by decide, by decide, by decide,
    c6_unknown_level_noop "some text".data "banana" (by decide) (by decide)
      (by decide)⟩

end DocAnalyzer

namespace DocAnalyzer

/-! ## Claim C8 -/

set_option maxRecDepth 100000 in
/-- C8 counterexample: storage keys are not unique per put operation.  Two
`save_single_analysis` calls for the same filename at distinct instants that
agree to the second (here differing only in microseconds) produce the
identical storage key, because `strftime('%Y%m%d_%H%M%S')` drops the
sub-second component — so a second write overwrites the first. -/
theorem c8_key_collision_counterexample :
    (⟨2025, 1, 1, 12, 0, 0, 0⟩ : Timestamp) ≠ ⟨2025, 1, 1, 12, 0, 0, 500000⟩ ∧
    analysisFileName "report.pdf".data ⟨2025, 1, 1, 12, 0, 0, 0⟩ =
      analysisFileName "report.pdf".data ⟨2025, 1, 1, 12, 0, 0, 500000⟩ := by
  decide

/-- C8 (amended): each storage key is indeed the 8-character prefix of the
MD5 hash of the original filename concatenated with a timestamp — but the
timestamp has only second resolution, so the keying does NOT guarantee
uniqueness: any two put operations whose filenames agree and whose call
times format to the same second produce the same key (and writes can
overwrite). -/
theorem c8_key_structure (f : List Char) (t1 t2 : Timestamp)
    (h : fmtCompact t1 = fmtCompact t2) :
    analysisFileName f t1 =
      "analysis_".data ++ (md5hex f).take 8 ++ "_".data ++ fmtCompact t1 ++
        ".json".data ∧
    analysisFileName f t1 = analysisFileName f t2 := by
  refine ⟨rfl, ?_⟩
  rw [analysisFileName, analysisFileName, h]

/-- Witness for C8: the amended theorem applied to two concrete call times
in the same second. -/
theorem c8_key_structure_witness :
    fmtCompact ⟨2025, 3, 4, 5, 6, 7, 1⟩ = fmtCompact ⟨2025, 3, 4, 5, 6, 7, 999999⟩ ∧
    (analysisFileName "a.pdf".data ⟨2025, 3, 4, 5, 6, 7, 1⟩ =
      "analysis_".data ++ (md5hex "a.pdf".data).take 8 ++ "_".data ++
        fmtCompact (⟨2025, 3, 4, 5, 6, 7, 1⟩ : Timestamp) ++ ".json".data ∧
      analysisFileName "a.pdf".data ⟨2025, 3, 4, 5, 6, 7, 1⟩ =
        analysisFileName "a.pdf".data ⟨2025, 3, 4, 5, 6, 7, 999999⟩) :=
  ⟨by decide,
    c8_key_structure "a.pdf".data ⟨2025, 3, 4, 5, 6, 7, 1⟩
      ⟨2025, 3, 4, 5, 6, 7, 999999⟩ (by decide)⟩

/-! ## Claim C9 -/

/-- C9: when every removal count is zero, the sanitization section of the
privacy report ends in the single `"• No sensitive patterns detected"` line
and contains no per-category breakdown; when some count is positive, it ends
in the total line followed by exactly one line per category with a positive
count (in the dictionary's fixed order). -/
theorem c9_report_breakdown (i : SanitizeInfo) :
    (i.removed_items.total = 0 →
      getPrivacyReport (some i) =
        reportHeader ++ sanitSummary i ++
          "• No sensitive patterns detected\n".data) ∧
    (0 < i.removed_items.total →
      getPrivacyReport (some i) =
        reportHeader ++ sanitSummary i ++
          "• Total sensitive items removed: ".data ++
          natDigits i.removed_items.total ++ ['\n'] ++
          (((removedItemsList i.removed_items).filter
            (fun p => 0 < p.2)).map itemLine).flatten) := by
  constructor
  · intro h
    simp only [getPrivacyReport, h, Nat.lt_irrefl, if_false, List.append_assoc]
  · intro h
    simp only [getPrivacyReport, if_pos h, itemizedLoop_eq_filter,
      List.append_assoc]

/-- Witness for C9: the theorem applied to a concrete all-zero outcome and a
concrete outcome with two positive categories. -/
theorem c9_report_breakdown_witness :
    ((⟨"medium", 10, 10, {}⟩ : SanitizeInfo).removed_items.total = 0 ∧
      getPrivacyReport (some ⟨"medium", 10, 10, {}⟩) =
        reportHeader ++ sanitSummary ⟨"medium", 10, 10, {}⟩ ++
          "• No sensitive patterns detected\n".data) ∧
    (0 < (⟨"high", 20, 15, ⟨2, 0, 1, 0, 0, 0⟩⟩ : SanitizeInfo).removed_items.total ∧
      getPrivacyReport (some ⟨"high", 20, 15, ⟨2, 0, 1, 0, 0, 0⟩⟩) =
        reportHeader ++ sanitSummary ⟨"high", 20, 15, ⟨2, 0, 1, 0, 0, 0⟩⟩ ++
          "• Total sensitive items removed: ".data ++
          natDigits (⟨"high", 20, 15, ⟨2, 0, 1, 0, 0, 0⟩⟩ :
            SanitizeInfo).removed_items.total ++ ['\n'] ++
          (((removedItemsList
              (⟨"high", 20, 15, ⟨2, 0, 1, 0, 0, 0⟩⟩ :
                SanitizeInfo).removed_items).filter
            (fun p => 0 < p.2)).map itemLine).flatten) :=
  ⟨⟨by decide, (c9_report_breakdown ⟨"medium", 10, 10, {}⟩).1 (by decide)⟩,
    ⟨by decide, (c9_report_breakdown ⟨"high", 20, 15, ⟨2, 0, 1, 0, 0, 0⟩⟩).2
      (by decide)⟩⟩

/-! ## Claim C10 -/

/-- C10: every record persisted by `save_single_analysis` carries the
original, unhashed filename in cleartext in its `filename` field, while the
storage key itself uses only the first 8 hex characters of the 32-character
MD5 digest of the filename (plus a second-resolution timestamp) — the
persisted content, unlike the key, identifies the source document. -/
theorem c10_record_contains_filename (a : AnalysisFields) (f : List Char)
    (info : Option SanitizeInfo) (t : Timestamp) :
    (saveSingleAnalysis a f info t).1.filename = f ∧
    (saveSingleAnalysis a f info t).2 =
      "analysis_".data ++ (md5hex f).take 8 ++ "_".data ++ fmtCompact t ++
        ".json".data ∧
    (md5hex f).length = 32 :=
  ⟨rfl, rfl, rfl⟩

end DocAnalyzer

namespace DocAnalyzer

/-- The suffix left by a derivation, together with the length accounting:
`s = u ++ s2`. -/
theorem Deriv.exists_prefix {r : RE} {prev : Option Char} {s : List Char}
    {p2 : Option Char} {s2 : List Char} (h : Deriv r prev s p2 s2) :
    ∃ u, s = u ++ s2 := by
  induction h with
  | eps => exact ⟨[], rfl⟩
  | wb _ => exact ⟨[], rfl⟩
  | cls _ => exact ⟨[_], rfl⟩
  | repStop => exact ⟨[], rfl⟩
  | repMore _ _ ih =>
    obtain ⟨u, rfl⟩ := ih
    exact ⟨_ :: u, rfl⟩
  | cat _ _ ih1 ih2 =>
    obtain ⟨u1, rfl⟩ := ih1
    obtain ⟨u2, rfl⟩ := ih2
    exact ⟨u1 ++ u2, (List.append_assoc u1 u2 _).symm⟩
  | altL _ ih => exact ih
  | altR _ ih => exact ih

/-- Soundness of the greedy class-repetition matcher with respect to the
declarative relation. -/
theorem mtchRep_sound {p : Char → Bool} :
    ∀ (s : List Char) (mn : Nat) (prev : Option Char)
      (k : Option Char → List Char → Option Nat) (n : Nat),
      mtchRep p mn prev s k = some n →
      ∃ u p2 s2 m, s = u ++ s2 ∧ u.length + m = n ∧
        Deriv (.rep p mn) prev s p2 s2 ∧ k p2 s2 = some m := by
  intro s
  induction s with
  | nil =>
    intro mn prev k n h
    simp only [mtchRep] at h
    by_cases h0 : mn == 0
    · rw [if_pos h0] at h
      have hmn : mn = 0 := by simpa using h0
      subst hmn
      exact ⟨[], prev, [], n, rfl, by simp, Deriv.repStop, h⟩
    · rw [if_neg h0] at h
      exact absurd h (by simp)
  | cons c rest ih =>
    intro mn prev k n h
    simp only [mtchRep] at h
    by_cases hp : p c
    · rw [if_pos hp] at h
      cases hrec : mtchRep p (mn - 1) (some c) rest k with
      | some n0 =>
        rw [hrec] at h
        obtain ⟨u, p2, s2, m, hsplit, hlen, hder, hk⟩ := ih _ _ _ _ hrec
        refine ⟨c :: u, p2, s2, m, by rw [hsplit]; rfl, ?_,
          Deriv.repMore hp hder, hk⟩
        simp only [Option.some.injEq] at h
        simp only [List.length_cons]
        omega
      | none =>
        rw [hrec] at h
        by_cases h0 : mn == 0
        · rw [if_pos h0] at h
          have hmn : mn = 0 := by simpa using h0
          subst hmn
          exact ⟨[], prev, c :: rest, n, rfl, by simp, Deriv.repStop, h⟩
        · rw [if_neg h0] at h
          exact absurd h (by simp)
    · rw [if_neg hp] at h
      by_cases h0 : mn == 0
      · rw [if_pos h0] at h
        have hmn : mn = 0 := by simpa using h0
        subst hmn
        exact ⟨[], prev, c :: rest, n, rfl, by simp, Deriv.repStop, h⟩
      · rw [if_neg h0] at h
        exact absurd h (by simp)

/-- Soundness of the backtracking matcher: a success yields a declarative
derivation plus a success of the continuation on the leftover suffix. -/
theorem mtch_sound :
    ∀ (r : RE) (prev : Option Char) (s : List Char)
      (k : Option Char → List Char → Option Nat) (n : Nat),
      mtch r prev s k = some n →
      ∃ u p2 s2 m, s = u ++ s2 ∧ u.length + m = n ∧
        Deriv r prev s p2 s2 ∧ k p2 s2 = some m := by
  intro r
  induction r with
  | eps =>
    intro prev s k n h
    exact ⟨[], prev, s, n, rfl, by simp, Deriv.eps, h⟩
  | wb =>
    intro prev s k n h
    simp only [mtch] at h
    by_cases hb : atBoundary prev s
    · rw [if_pos hb] at h
      exact ⟨[], prev, s, n, rfl, by simp, Deriv.wb hb, h⟩
    · rw [if_neg hb] at h
      exact absurd h (by simp)
  | cls p =>
    intro prev s k n h
    cases s with
    | nil => exact absurd h (by simp [mtch])
    | cons c rest =>
      simp only [mtch] at h
      by_cases hp : p c
      · rw [if_pos hp] at h
        cases hk : k (some c) rest with
        | some n0 =>
          rw [hk] at h
          simp only [Option.some.injEq] at h
          exact ⟨[c], some c, rest, n0, rfl, by simp; omega, Deriv.cls hp, hk⟩
        | none => rw [hk] at h; exact absurd h (by simp)
      · rw [if_neg hp] at h
        exact absurd h (by simp)
  | rep p mn =>
    intro prev s k n h
    exact mtchRep_sound s mn prev k n h
  | cat a b iha ihb =>
    intro prev s k n h
    simp only [mtch] at h
    obtain ⟨u1, p1, s1, m1, hs1, hl1, hd1, hk1⟩ := iha _ _ _ _ h
    obtain ⟨u2, p2, s2, m2, hs2, hl2, hd2, hk2⟩ := ihb _ _ _ _ hk1
    refine ⟨u1 ++ u2, p2, s2, m2, ?_, ?_, Deriv.cat hd1 hd2, hk2⟩
    · rw [hs1, hs2, List.append_assoc]
    · simp only [List.length_append]
      omega
  | alt a b iha ihb =>
    intro prev s k n h
    simp only [mtch] at h
    cases ha : mtch a prev s k with
    | some n0 =>
      rw [ha] at h
      simp only [Option.some.injEq] at h
      obtain ⟨u, p2, s2, m, hs, hl, hd, hk⟩ := iha _ _ _ _ ha
      exact ⟨u, p2, s2, m, hs, by omega, Deriv.altL hd, hk⟩
    | none =>
      rw [ha] at h
      obtain ⟨u, p2, s2, m, hs, hl, hd, hk⟩ := ihb _ _ _ _ h
      exact ⟨u, p2, s2, m, hs, hl, Deriv.altR hd, hk⟩

/-- Completeness of the backtracking matcher: whenever a declarative
derivation exists and the continuation succeeds on its leftover, the matcher
succeeds (on some, possibly different, alternative). -/
theorem mtch_complete {r : RE} {prev : Option Char} {s : List Char}
    {p2 : Option Char} {s2 : List Char} (h : Deriv r prev s p2 s2) :
    ∀ k : Option Char → List Char → Option Nat,
      k p2 s2 ≠ none → mtch r prev s k ≠ none := by
  induction h with
  | eps => intro k hk; exact hk
  | wb hb => intro k hk; simp only [mtch, if_pos hb]; exact hk
  | cls hp =>
    intro k hk
    simp only [mtch, if_pos hp]
    cases hk2 : k (some _) _ with
    | some n0 => simp
    | none => exact absurd hk2 hk
  | repStop =>
    intro k hk
    simp only [mtch]
    rename_i p prev s
    cases s with
    | nil => simpa [mtchRep] using hk
    | cons c rest =>
      simp only [mtchRep]
      by_cases hp : p c
      · rw [if_pos hp]
        cases hrec : mtchRep p (0 - 1) (some c) rest k with
        | some n0 => simp
        | none => simpa using hk
      · rw [if_neg hp]
        simpa using hk
  | repMore hp hder ih =>
    intro k hk
    simp only [mtch, mtchRep, if_pos hp]
    cases hrec : mtchRep _ _ (some _) _ k with
    | some n0 => simp
    | none =>
      exact absurd hrec (by simpa only [mtch] using ih k hk)
  | cat hda hdb iha ihb =>
    intro k hk
    simp only [mtch]
    exact iha _ (ihb k hk)
  | altL hda iha =>
    intro k hk
    simp only [mtch]
    rename_i aa pv sv pv2 sv2 bb
    cases ha : mtch aa pv sv k with
    | some n0 => simp [ha]
    | none => exact absurd ha (iha k hk)
  | altR hdb ihb =>
    intro k hk
    simp only [mtch]
    rename_i b2 pv sv p2v s2v a2
    cases ha : mtch a2 pv sv k with
    | some n0 => simp [ha]
    | none => simp only [ha]; exact ihb k hk

theorem atBoundary_eq (prev : Option Char) (s : List Char) :
    atBoundary prev s = (classOfOpt prev != headClass s) := by
  cases prev <;> cases s <;> rfl

theorem headClass_append (w x : List Char) :
    headClass (w ++ x) = (match w with | [] => headClass x | c :: _ => isWordChar c) := by
  cases w <;> rfl

/-- Consumed characters satisfy every predicate that all the regex's classes
satisfy. -/
theorem Deriv.prefix_sat (P : Char → Bool) {r : RE} {prev : Option Char}
    {s : List Char} {p2 : Option Char} {s2 : List Char}
    (h : Deriv r prev s p2 s2) (hsat : ClsSat P r) :
    ∃ u, s = u ++ s2 ∧ ∀ c ∈ u, P c = true := by
  induction h with
  | eps => exact ⟨[], rfl, by simp⟩
  | wb _ => exact ⟨[], rfl, by simp⟩
  | cls hp =>
    rename_i p prev c rest
    exact ⟨[c], rfl, by simpa using hsat c hp⟩
  | repStop => exact ⟨[], rfl, by simp⟩
  | repMore hp _ ih =>
    rename_i p c mn rest p2v s2v prevv
    obtain ⟨u, hu, hall⟩ := ih hsat
    refine ⟨c :: u, by rw [hu]; rfl, ?_⟩
    intro d hd
    rcases List.mem_cons.mp hd with h1 | h2
    · exact h1 ▸ hsat c hp
    · exact hall d h2
  | cat _ _ ih1 ih2 =>
    obtain ⟨u1, hu1, hall1⟩ := ih1 hsat.1
    obtain ⟨u2, hu2, hall2⟩ := ih2 hsat.2
    refine ⟨u1 ++ u2, ?_, ?_⟩
    · rw [hu1, hu2, List.append_assoc]
    · intro d hd
      rcases List.mem_append.mp hd with h1 | h2
      · exact hall1 d h1
      · exact hall2 d h2
  | altL _ ih => exact ih hsat.1
  | altR _ ih => exact ih hsat.2

/-- The leftover suffix is no longer than the input. -/
theorem Deriv.rest_length_le {r : RE} {prev : Option Char} {s : List Char}
    {p2 : Option Char} {s2 : List Char} (h : Deriv r prev s p2 s2) :
    s2.length ≤ s.length := by
  obtain ⟨u, rfl⟩ := h.exists_prefix
  simp

/-- List surgery: a decomposition of `w ++ x` whose right part is at least
as long as `x` splits off a middle piece of `w`. -/
theorem append_decomp :
    ∀ (u w x v : List Char), w ++ x = u ++ v → x.length ≤ v.length →
      ∃ w1, v = w1 ++ x ∧ w = u ++ w1 := by
  intro u
  induction u with
  | nil =>
    intro w x v h hlen
    exact ⟨w, by simpa using h.symm, by simp⟩
  | cons a u2 ih =>
    intro w x v h hlen
    cases w with
    | nil =>
      exfalso
      simp only [List.nil_append] at h
      have := congrArg List.length h
      simp at this
      omega
    | cons b w2 =>
      simp only [List.cons_append, List.cons.injEq] at h
      obtain ⟨rfl, h2⟩ := h
      obtain ⟨w1, hv, hw⟩ := ih w2 x v h2 hlen
      exact ⟨w1, hv, by rw [hw]; rfl⟩

/-- Transfer lemma: a derivation over `w ++ x2` whose consumption stays
within `w` (its leftover still contains all of `x2`) also works over
`w ++ x1`, for any previous-character context of the same word class and any
`x1` whose head has the same word class as `x2`'s head whenever the leftover
reaches exactly `x2`.  The resulting exit context has the same word class. -/
theorem Deriv.transfer {r : RE} {prev : Option Char} {s : List Char}
    {p2 : Option Char} {srest : List Char} (h : Deriv r prev s p2 srest) :
    ∀ (w w2 x2 : List Char), s = w ++ x2 → srest = w2 ++ x2 →
      w2.length ≤ w.length →
      ∀ (x1 : List Char) (prevB : Option Char),
        classOfOpt prevB = classOfOpt prev →
        (w2 = [] → headClass x1 = headClass x2) →
        ∃ p2B, classOfOpt p2B = classOfOpt p2 ∧
          Deriv r prevB (w ++ x1) p2B (w2 ++ x1) := by
  induction h with
  | eps =>
    intro w w2 x2 hs hrest hlen x1 prevB hcls hhead
    have hw : w = w2 := by
      have := hs.symm.trans hrest
      exact List.append_cancel_right this
    subst hw
    exact ⟨prevB, hcls, Deriv.eps⟩
  | wb hb =>
    rename_i prevv sv
    intro w w2 x2 hs hrest hlen x1 prevB hcls hhead
    have hw : w = w2 := by
      have := hs.symm.trans hrest
      exact List.append_cancel_right this
    subst hw
    refine ⟨prevB, hcls, Deriv.wb ?_⟩
    rw [atBoundary_eq, hcls]
    rw [atBoundary_eq] at hb
    rw [hs] at hb
    cases w with
    | nil =>
      have hx := hhead rfl
      simp only [List.nil_append] at hb ⊢
      rw [hx]
      exact hb
    | cons c w2 => simpa [headClass_append] using hb
  | cls hp =>
    rename_i p prevv c rest
    intro w w2 x2 hs hrest hlen x1 prevB hcls hhead
    cases w with
    | nil =>
      exfalso
      simp only [List.nil_append] at hs
      subst hs
      have h1 := congrArg List.length hrest
      simp at h1
      omega
    | cons b w3 =>
      simp only [List.cons_append, List.cons.injEq] at hs
      obtain ⟨rfl, h2⟩ := hs
      have hw : w3 = w2 := by
        have := h2.symm.trans hrest
        exact List.append_cancel_right this
      subst hw
      exact ⟨_, rfl, Deriv.cls hp⟩
  | repStop =>
    intro w w2 x2 hs hrest hlen x1 prevB hcls hhead
    have hw : w = w2 := by
      have := hs.symm.trans hrest
      exact List.append_cancel_right this
    subst hw
    exact ⟨prevB, hcls, Deriv.repStop⟩
  | repMore hp hder ih =>
    rename_i p c mn rest p2v s2v prevv
    intro w w2 x2 hs hrest hlen x1 prevB hcls hhead
    cases w with
    | nil =>
      exfalso
      simp only [List.nil_append] at hs
      subst hs
      have h1 := hder.rest_length_le
      have h2 := congrArg List.length hrest
      simp at h1 h2
      omega
    | cons b w3 =>
      simp only [List.cons_append, List.cons.injEq] at hs
      obtain ⟨rfl, h2⟩ := hs
      have hlen2 : w2.length ≤ w3.length := by
        have h1 := hder.rest_length_le
        rw [h2, hrest] at h1
        simp at h1
        omega
      obtain ⟨p2B, hcls2, hd2⟩ :=
        ih w3 w2 x2 h2 hrest hlen2 x1 _ rfl hhead
      exact ⟨p2B, hcls2, Deriv.repMore hp hd2⟩
  | cat hda hdb iha ihb =>
    intro w w2 x2 hs hrest hlen x1 prevB hcls hhead
    rename_i a prevv sv p1v s1v b p2vv s2vv
    have hs1len : x2.length ≤ s1v.length := by
      have h1 := hdb.rest_length_le
      rw [hrest] at h1
      simp at h1
      omega
    obtain ⟨u1, hu1⟩ := hda.exists_prefix
    obtain ⟨w1, hs1, hw⟩ := append_decomp u1 w x2 s1v (hs ▸ hu1) hs1len
    have hlen1 : w1.length ≤ w.length := by
      rw [hw]; simp
    have hlen21 : w2.length ≤ w1.length := by
      have h1 := hdb.rest_length_le
      rw [hrest, hs1] at h1
      simp at h1
      omega
    have hhead1 : w1 = [] → headClass x1 = headClass x2 := by
      intro h1
      apply hhead
      have : w2.length = 0 := by rw [h1] at hlen21; simpa using hlen21
      exact List.eq_nil_of_length_eq_zero this
    obtain ⟨p1B, hcls1, hd1⟩ :=
      iha w w1 x2 hs hs1 hlen1 x1 prevB hcls hhead1
    obtain ⟨p2B, hcls2, hd2⟩ :=
      ihb w1 w2 x2 hs1 hrest hlen21 x1 p1B hcls1 hhead
    exact ⟨p2B, hcls2, Deriv.cat hd1 hd2⟩
  | altL hda iha =>
    intro w w2 x2 hs hrest hlen x1 prevB hcls hhead
    obtain ⟨p2B, hcls2, hd⟩ := iha w w2 x2 hs hrest hlen x1 prevB hcls hhead
    exact ⟨p2B, hcls2, Deriv.altL hd⟩
  | altR hdb ihb =>
    intro w w2 x2 hs hrest hlen x1 prevB hcls hhead
    obtain ⟨p2B, hcls2, hd⟩ := ihb w w2 x2 hs hrest hlen x1 prevB hcls hhead
    exact ⟨p2B, hcls2, Deriv.altR hd⟩

/-- The exit context of a derivation is the last consumed character (or the
entry context when nothing was consumed). -/
theorem Deriv.pOut {r : RE} {prev : Option Char} {s : List Char}
    {p2 : Option Char} {s2 : List Char} (h : Deriv r prev s p2 s2) :
    (p2 = prev ∧ s2 = s) ∨ (∃ u c, s = u ++ c :: s2 ∧ p2 = some c) := by
  induction h with
  | eps => exact Or.inl ⟨rfl, rfl⟩
  | wb _ => exact Or.inl ⟨rfl, rfl⟩
  | cls _ => exact Or.inr ⟨[], _, rfl, rfl⟩
  | repStop => exact Or.inl ⟨rfl, rfl⟩
  | repMore hp hder ih =>
    rcases ih with ⟨rfl, rfl⟩ | ⟨u, d, hu, rfl⟩
    · exact Or.inr ⟨[], _, rfl, rfl⟩
    · subst hu
      exact Or.inr ⟨_ :: u, d, rfl, rfl⟩
  | cat hda hdb iha ihb =>
    rcases ihb with ⟨rfl, rfl⟩ | ⟨u, d, hu, rfl⟩
    · exact iha
    · obtain ⟨u1, rfl⟩ := hda.exists_prefix
      exact Or.inr ⟨u1 ++ u, d, by rw [hu, List.append_assoc], rfl⟩
  | altL _ ih => exact ih
  | altR _ ih => exact ih

/-- Context transfer for identical text: only the word class of the previous
character matters. -/
theorem Deriv.ctx_transfer {r : RE} {prev : Option Char} {s : List Char}
    {p2 : Option Char} {s2 : List Char} (h : Deriv r prev s p2 s2)
    (prevB : Option Char) (hcls : classOfOpt prevB = classOfOpt prev) :
    ∃ p2B, Deriv r prevB s p2B s2 := by
  obtain ⟨u, rfl⟩ := h.exists_prefix
  obtain ⟨p2B, _, hd⟩ :=
    h.transfer u [] s2 rfl (by simp) (by simp) s2 prevB hcls (fun _ => rfl)
  exact ⟨p2B, by simpa using hd⟩

theorem NoMatchList_drop {r : RE} :
    ∀ (u : List Char) {prev : Option Char} {v : List Char} {c : Char},
      NoMatchList r prev (u ++ v) → u.getLast? = some c →
      NoMatchList r (some c) v := by
  intro u
  induction u with
  | nil => intro prev v c _ hlast; simp at hlast
  | cons a u2 ih =>
    intro prev v c h hlast
    cases u2 with
    | nil =>
      simp only [List.getLast?_singleton, Option.some.injEq] at hlast
      subst hlast
      exact h.2
    | cons b u3 =>
      rw [List.getLast?_cons_cons] at hlast
      exact ih h.2 hlast

/-- Inversion for concatenation. -/
theorem Deriv.cat_inv {a b : RE} {prev : Option Char} {s : List Char}
    {p2 : Option Char} {s2 : List Char} (h : Deriv (.cat a b) prev s p2 s2) :
    ∃ p1 s1, Deriv a prev s p1 s1 ∧ Deriv b p1 s1 p2 s2 := by
  cases h with
  | cat hda hdb => exact ⟨_, _, hda, hdb⟩

/-- Inversion for the boundary assertion. -/
theorem Deriv.wb_inv {prev : Option Char} {s : List Char} {p2 : Option Char}
    {s2 : List Char} (h : Deriv .wb prev s p2 s2) :
    atBoundary prev s = true ∧ p2 = prev ∧ s2 = s := by
  cases h with
  | wb hb => exact ⟨hb, rfl, rfl⟩

/-- Every rule pattern starts with `\b`: a match implies a boundary at its
start. -/
theorem Deriv.leading_wb {b : RE} {prev : Option Char} {s : List Char}
    {p2 : Option Char} {s2 : List Char}
    (h : Deriv (.cat .wb b) prev s p2 s2) : atBoundary prev s = true := by
  obtain ⟨p1, s1, hda, _⟩ := h.cat_inv
  exact hda.wb_inv.1

/-- Every rule pattern ends with `\b`: a match implies a boundary at its
end. -/
theorem Deriv.trailing_wb :
    ∀ (l : List RE) {prev : Option Char} {s : List Char} {p2 : Option Char}
      {s2 : List Char}, Deriv (reCat (l ++ [.wb])) prev s p2 s2 →
      atBoundary p2 s2 = true := by
  intro l
  induction l with
  | nil =>
    intro prev s p2 s2 h
    obtain ⟨p1, s1, hda, hdb⟩ := h.cat_inv
    obtain ⟨hb, rfl, rfl⟩ := hda.wb_inv
    cases hdb with
    | eps => exact hb
  | cons e l2 ih =>
    intro prev s p2 s2 h
    obtain ⟨p1, s1, _, hdb⟩ := h.cat_inv
    exact ih hdb

theorem elemWitness_cls {W : Char → Bool} {p : Char → Bool}
    (hp : ∀ c, p c = true → W c = true) : ElemWitness W (.cls p) := by
  intro prev s p2 s2 h
  cases h with
  | cls hc =>
    rename_i c
    exact ⟨[c], rfl, c, by simp, hp c hc⟩

theorem elemWitness_rep {W : Char → Bool} {p : Char → Bool} {m : Nat}
    (hp : ∀ c, p c = true → W c = true) : ElemWitness W (.rep p (m + 1)) := by
  intro prev s p2 s2 h
  cases h with
  | repMore hc hder =>
    rename_i c rest
    obtain ⟨u, rfl⟩ := hder.exists_prefix
    exact ⟨c :: u, rfl, c, by simp, hp c hc⟩

/-- If some element of a concatenation always consumes a `W` character, so
does the whole concatenation. -/
theorem reCat_witness {W : Char → Bool} :
    ∀ (l : List RE) (e : RE), e ∈ l → ElemWitness W e →
      ∀ {prev s p2 s2}, Deriv (reCat l) prev s p2 s2 →
        ∃ u, s = u ++ s2 ∧ ∃ c ∈ u, W c = true := by
  intro l
  induction l with
  | nil => intro e he; exact absurd he (by simp)
  | cons f l2 ih =>
    intro e he hew prev s p2 s2 h
    obtain ⟨p1, s1, hda, hdb⟩ := h.cat_inv
    rcases List.mem_cons.mp he with rfl | he2
    · obtain ⟨u1, hu1, c, hc, hW⟩ := hew hda
      obtain ⟨u2, rfl⟩ := hdb.exists_prefix
      refine ⟨u1 ++ u2, by rw [hu1, List.append_assoc], c, ?_, hW⟩
      exact List.mem_append.mpr (Or.inl hc)
    · obtain ⟨u1, rfl⟩ := hda.exists_prefix
      obtain ⟨u2, hu2, c, hc, hW⟩ := ih e he2 hew hdb
      refine ⟨u1 ++ u2, by rw [hu2, List.append_assoc], c, ?_, hW⟩
      exact List.mem_append.mpr (Or.inr hc)

theorem elemWitness_reN_cls {W : Char → Bool} {p : Char → Bool} {n : Nat}
    (hp : ∀ c, p c = true → W c = true) :
    ElemWitness W (reN (.cls p) (n + 1)) := by
  intro prev s p2 s2 h
  have hmem : (.cls p : RE) ∈ List.replicate (n + 1) (.cls p : RE) :=
    List.mem_replicate.mpr ⟨Nat.succ_ne_zero n, rfl⟩
  exact reCat_witness (List.replicate (n + 1) (.cls p)) (.cls p) hmem
    (elemWitness_cls hp) h

/-- `ClsSat` for a concatenation, from its elements. -/
theorem ClsSat_reCat {P : Char → Bool} :
    ∀ (l : List RE), (∀ e ∈ l, ClsSat P e) → ClsSat P (reCat l) := by
  intro l
  induction l with
  | nil => intro _; trivial
  | cons e l2 ih =>
    intro h
    exact ⟨h e (by simp), ih (fun f hf => h f (List.mem_cons_of_mem e hf))⟩

theorem ClsSat_reN {P : Char → Bool} {r : RE} (h : ClsSat P r) (n : Nat) :
    ClsSat P (reN r n) := by
  apply ClsSat_reCat
  intro e he
  rw [List.eq_of_mem_replicate he]
  exact h

theorem ClsSat_chrRE {P : Char → Bool} {c : Char} (h : P c = true) :
    ClsSat P (chrRE c) := by
  intro d hd
  have : d = c := by simpa using hd
  rw [this]
  exact h

theorem ClsSat_strRE {P : Char → Bool} {s : String}
    (h : ∀ c ∈ s.data, P c = true) : ClsSat P (strRE s) := by
  apply ClsSat_reCat
  intro e he
  simp only [strRE, List.mem_map] at he
  obtain ⟨c, hc, rfl⟩ := he
  exact ClsSat_chrRE (h c hc)

theorem ClsSat_altList {P : Char → Bool} :
    ∀ (l : List RE), (∀ e ∈ l, ClsSat P e) → ClsSat P (altList l) := by
  intro l
  induction l with
  | nil => intro _; trivial
  | cons e l2 ih =>
    intro h
    cases l2 with
    | nil => exact h e (by simp)
    | cons f l3 =>
      exact ⟨h e (by simp),
        ih (fun g hg => h g (List.mem_cons_of_mem e hg))⟩

theorem ClsSat_optCls {P : Char → Bool} {p : Char → Bool}
    (h : ∀ c, p c = true → P c = true) : ClsSat P (optCls p) :=
  ⟨h, trivial⟩

/-- Helper: a class satisfies `P` whenever `P` fails only on characters the
class rejects. -/
theorem clsSat_of_eval {P : Char → Bool} {p : Char → Bool}
    (h : ∀ c, P c = false → p c = false) :
    ∀ c, p c = true → P c = true := by
  intro c hc
  cases hP : P c with
  | true => rfl
  | false => rw [h c hP] at hc; cases hc

theorem cls_noBrk {p : Char → Bool} (h1 : p '[' = false) (h2 : p ']' = false) :
    ∀ c, p c = true → noBrk c = true := by
  intro c hc
  by_cases e1 : c = '['
  · subst e1; rw [h1] at hc; cases hc
  · by_cases e2 : c = ']'
    · subst e2; rw [h2] at hc; cases hc
    · simp [noBrk, e1, e2]

theorem ClsSat_cls {P p : Char → Bool} (h : ∀ c, p c = true → P c = true) :
    ClsSat P (.cls p) := h

theorem ClsSat_rep {P p : Char → Bool} {n : Nat}
    (h : ∀ c, p c = true → P c = true) : ClsSat P (.rep p n) := h

theorem digit_wChar : ∀ c, isDigitChar c = true → wChar c = true := by
  intro c hc
  simp only [isDigitChar] at hc
  simp [wChar, hc]

theorem lower_wChar : ∀ c, Char.isLower c = true → wChar c = true := by
  intro c hc
  simp [wChar, hc]

theorem at_wChar : ∀ c, (c == '@') = true → wChar c = true := by
  intro c hc
  have : c = '@' := by simpa using hc
  subst this
  decide

theorem creditCard_facts : RuleFacts creditCardRE := by
  refine ⟨fun h => Deriv.leading_wb h, ?_, ?_, ?_⟩
  · intro prev s p2 s2 h
    exact Deriv.trailing_wb [.wb, reN (.cls isDigitChar) 4, optCls isSpaceDash,
      reN (.cls isDigitChar) 4, optCls isSpaceDash, reN (.cls isDigitChar) 4,
      optCls isSpaceDash, reN (.cls isDigitChar) 4] h
  · intro prev s p2 s2 h
    exact reCat_witness _ (reN (.cls isDigitChar) 4)
      (List.Mem.tail _ (List.Mem.head _)) (elemWitness_reN_cls digit_wChar) h
  · refine ClsSat_reCat _ ?_
    intro e he
    rcases List.mem_cons.mp he with rfl | he
    · trivial
    rcases List.mem_cons.mp he with rfl | he
    · exact ClsSat_reN (ClsSat_cls (cls_noBrk (by decide) (by decide))) 4
    rcases List.mem_cons.mp he with rfl | he
    · exact ClsSat_optCls (cls_noBrk (by decide) (by decide))
    rcases List.mem_cons.mp he with rfl | he
    · exact ClsSat_reN (ClsSat_cls (cls_noBrk (by decide) (by decide))) 4
    rcases List.mem_cons.mp he with rfl | he
    · exact ClsSat_optCls (cls_noBrk (by decide) (by decide))
    rcases List.mem_cons.mp he with rfl | he
    · exact ClsSat_reN (ClsSat_cls (cls_noBrk (by decide) (by decide))) 4
    rcases List.mem_cons.mp he with rfl | he
    · exact ClsSat_optCls (cls_noBrk (by decide) (by decide))
    rcases List.mem_cons.mp he with rfl | he
    · exact ClsSat_reN (ClsSat_cls (cls_noBrk (by decide) (by decide))) 4
    rcases List.mem_cons.mp he with rfl | he
    · trivial
    exact absurd he (by simp)

theorem phone_facts : RuleFacts phoneRE := by
  refine ⟨fun h => Deriv.leading_wb h, ?_, ?_, ?_⟩
  · intro prev s p2 s2 h
    exact Deriv.trailing_wb [.wb, reN (.cls isDigitChar) 3, optCls isDashDot,
      reN (.cls isDigitChar) 3, optCls isDashDot, reN (.cls isDigitChar) 4] h
  · intro prev s p2 s2 h
    exact reCat_witness _ (reN (.cls isDigitChar) 3)
      (List.Mem.tail _ (List.Mem.head _)) (elemWitness_reN_cls digit_wChar) h
  · refine ClsSat_reCat _ ?_
    intro e he
    rcases List.mem_cons.mp he with rfl | he
    · trivial
    rcases List.mem_cons.mp he with rfl | he
    · exact ClsSat_reN (ClsSat_cls (cls_noBrk (by decide) (by decide))) 3
    rcases List.mem_cons.mp he with rfl | he
    · exact ClsSat_optCls (cls_noBrk (by decide) (by decide))
    rcases List.mem_cons.mp he with rfl | he
    · exact ClsSat_reN (ClsSat_cls (cls_noBrk (by decide) (by decide))) 3
    rcases List.mem_cons.mp he with rfl | he
    · exact ClsSat_optCls (cls_noBrk (by decide) (by decide))
    rcases List.mem_cons.mp he with rfl | he
    · exact ClsSat_reN (ClsSat_cls (cls_noBrk (by decide) (by decide))) 4
    rcases List.mem_cons.mp he with rfl | he
    · trivial
    exact absurd he (by simp)

theorem ssn_facts : RuleFacts ssnRE := by
  refine ⟨fun h => Deriv.leading_wb h, ?_, ?_, ?_⟩
  · intro prev s p2 s2 h
    exact Deriv.trailing_wb [.wb, reN (.cls isDigitChar) 3, optCls isDashDot,
      reN (.cls isDigitChar) 2, optCls isDashDot, reN (.cls isDigitChar) 4] h
  · intro prev s p2 s2 h
    exact reCat_witness _ (reN (.cls isDigitChar) 3)
      (List.Mem.tail _ (List.Mem.head _)) (elemWitness_reN_cls digit_wChar) h
  · refine ClsSat_reCat _ ?_
    intro e he
    rcases List.mem_cons.mp he with rfl | he
    · trivial
    rcases List.mem_cons.mp he with rfl | he
    · exact ClsSat_reN (ClsSat_cls (cls_noBrk (by decide) (by decide))) 3
    rcases List.mem_cons.mp he with rfl | he
    · exact ClsSat_optCls (cls_noBrk (by decide) (by decide))
    rcases List.mem_cons.mp he with rfl | he
    · exact ClsSat_reN (ClsSat_cls (cls_noBrk (by decide) (by decide))) 2
    rcases List.mem_cons.mp he with rfl | he
    · exact ClsSat_optCls (cls_noBrk (by decide) (by decide))
    rcases List.mem_cons.mp he with rfl | he
    · exact ClsSat_reN (ClsSat_cls (cls_noBrk (by decide) (by decide))) 4
    rcases List.mem_cons.mp he with rfl | he
    · trivial
    exact absurd he (by simp)

theorem email_facts : RuleFacts emailRE := by
  refine ⟨fun h => Deriv.leading_wb h, ?_, ?_, ?_⟩
  · intro prev s p2 s2 h
    exact Deriv.trailing_wb [.wb, .rep isLocalChar 1, chrRE '@',
      .rep isDomainChar 1, chrRE '.', .rep isTldChar 2] h
  · intro prev s p2 s2 h
    exact reCat_witness _ (chrRE '@')
      (List.Mem.tail _ (List.Mem.tail _ (List.Mem.head _)))
      (elemWitness_cls at_wChar) h
  · refine ClsSat_reCat _ ?_
    intro e he
    rcases List.mem_cons.mp he with rfl | he
    · trivial
    rcases List.mem_cons.mp he with rfl | he
    · exact ClsSat_cls (cls_noBrk (by decide) (by decide))
    rcases List.mem_cons.mp he with rfl | he
    · exact ClsSat_chrRE (by decide)
    rcases List.mem_cons.mp he with rfl | he
    · exact ClsSat_cls (cls_noBrk (by decide) (by decide))
    rcases List.mem_cons.mp he with rfl | he
    · exact ClsSat_chrRE (by decide)
    rcases List.mem_cons.mp he with rfl | he
    · exact ClsSat_cls (cls_noBrk (by decide) (by decide))
    rcases List.mem_cons.mp he with rfl | he
    · trivial
    exact absurd he (by simp)

theorem name_facts : RuleFacts nameRE := by
  refine ⟨fun h => Deriv.leading_wb h, ?_, ?_, ?_⟩
  · intro prev s p2 s2 h
    exact Deriv.trailing_wb [.wb, .cls Char.isUpper, .rep Char.isLower 1,
      chrRE ' ', .cls Char.isUpper, .rep Char.isLower 1] h
  · intro prev s p2 s2 h
    exact reCat_witness _ (.rep Char.isLower 1)
      (List.Mem.tail _ (List.Mem.tail _ (List.Mem.head _)))
      (elemWitness_rep lower_wChar) h
  · refine ClsSat_reCat _ ?_
    intro e he
    rcases List.mem_cons.mp he with rfl | he
    · trivial
    rcases List.mem_cons.mp he with rfl | he
    · exact ClsSat_cls (cls_noBrk (by decide) (by decide))
    rcases List.mem_cons.mp he with rfl | he
    · exact ClsSat_cls (cls_noBrk (by decide) (by decide))
    rcases List.mem_cons.mp he with rfl | he
    · exact ClsSat_chrRE (by decide)
    rcases List.mem_cons.mp he with rfl | he
    · exact ClsSat_cls (cls_noBrk (by decide) (by decide))
    rcases List.mem_cons.mp he with rfl | he
    · exact ClsSat_cls (cls_noBrk (by decide) (by decide))
    rcases List.mem_cons.mp he with rfl | he
    · trivial
    exact absurd he (by simp)

theorem address_facts : RuleFacts addressRE := by
  refine ⟨fun h => Deriv.leading_wb h, ?_, ?_, ?_⟩
  · intro prev s p2 s2 h
    exact Deriv.trailing_wb [.wb, .rep isDigitChar 1, .rep isSpaceChar 1,
      .rep isAlphaSpace 1,
      altList [strRE "Street", strRE "St", strRE "Avenue", strRE "Ave",
        strRE "Road", strRE "Rd", strRE "Boulevard", strRE "Blvd",
        strRE "Drive", strRE "Dr", strRE "Lane", strRE "Ln"]] h
  · intro prev s p2 s2 h
    exact reCat_witness _ (.rep isDigitChar 1)
      (List.Mem.tail _ (List.Mem.head _)) (elemWitness_rep digit_wChar) h
  · refine ClsSat_reCat _ ?_
    intro e he
    rcases List.mem_cons.mp he with rfl | he
    · trivial
    rcases List.mem_cons.mp he with rfl | he
    · exact ClsSat_cls (cls_noBrk (by decide) (by decide))
    rcases List.mem_cons.mp he with rfl | he
    · exact ClsSat_cls (cls_noBrk (by decide) (by decide))
    rcases List.mem_cons.mp he with rfl | he
    · exact ClsSat_cls (cls_noBrk (by decide) (by decide))
    rcases List.mem_cons.mp he with rfl | he
    · refine ClsSat_altList _ ?_
      intro f hf
      rcases List.mem_cons.mp hf with rfl | hf
      · exact ClsSat_strRE (by decide)
      rcases List.mem_cons.mp hf with rfl | hf
      · exact ClsSat_strRE (by decide)
      rcases List.mem_cons.mp hf with rfl | hf
      · exact ClsSat_strRE (by decide)
      rcases List.mem_cons.mp hf with rfl | hf
      · exact ClsSat_strRE (by decide)
      rcases List.mem_cons.mp hf with rfl | hf
      · exact ClsSat_strRE (by decide)
      rcases List.mem_cons.mp hf with rfl | hf
      · exact ClsSat_strRE (by decide)
      rcases List.mem_cons.mp hf with rfl | hf
      · exact ClsSat_strRE (by decide)
      rcases List.mem_cons.mp hf with rfl | hf
      · exact ClsSat_strRE (by decide)
      rcases List.mem_cons.mp hf with rfl | hf
      · exact ClsSat_strRE (by decide)
      rcases List.mem_cons.mp hf with rfl | hf
      · exact ClsSat_strRE (by decide)
      rcases List.mem_cons.mp hf with rfl | hf
      · exact ClsSat_strRE (by decide)
      rcases List.mem_cons.mp hf with rfl | hf
      · exact ClsSat_strRE (by decide)
      exact absurd hf (by simp)
    rcases List.mem_cons.mp he with rfl | he
    · trivial
    exact absurd he (by simp)

theorem emailTok_facts : TokenFacts "[EMAIL]".data :=
  ⟨⟨"EMAIL".data, by decide⟩, by decide⟩

theorem phoneTok_facts : TokenFacts "[PHONE]".data :=
  ⟨⟨"PHONE".data, by decide⟩, by decide⟩

theorem creditTok_facts : TokenFacts "[CREDIT_CARD]".data :=
  ⟨⟨"CREDIT_CARD".data, by decide⟩, by decide⟩

theorem ssnTok_facts : TokenFacts "[SSN]".data :=
  ⟨⟨"SSN".data, by decide⟩, by decide⟩

theorem nameTok_facts : TokenFacts "[NAME]".data :=
  ⟨⟨"NAME".data, by decide⟩, by decide⟩

theorem addressTok_facts : TokenFacts "[ADDRESS]".data :=
  ⟨⟨"ADDRESS".data, by decide⟩, by decide⟩

theorem ctxAfter_cons (c : Char) (g : List Char) (p : Option Char) :
    ctxAfter (c :: g) p = ctxAfter g (some c) := by
  cases g with
  | nil => rfl
  | cons d g2 =>
    unfold ctxAfter
    rw [List.getLast?_cons_cons]
    cases hx : (d :: g2).getLast? with
    | some x => rfl
    | none =>
      rw [List.getLast?_eq_getLast_of_ne_nil (by simp)] at hx
      cases hx

theorem ctxAfter_concat (u : List Char) (c : Char) (p : Option Char) :
    ctxAfter (u ++ [c]) p = some c := by
  simp [ctxAfter, List.getLast?_concat]

/-- First-run view of a scan: either the whole input was copied verbatim, or
the input splits into a copied run followed by a match and a recursive
scan. -/
theorem rel_view {rr : RE} {tok : List Char} {prevS : Option Char}
    {sIn OOut : List Char} (h : ScanRel rr tok prevS sIn OOut) :
    OOut = sIn ∨
    ∃ g sTail pm srest O2 mseg,
      sIn = g ++ sTail ∧ OOut = g ++ (tok ++ O2) ∧
      Deriv rr (ctxAfter g prevS) sTail pm srest ∧
      sTail = mseg ++ srest ∧ mseg ≠ [] ∧
      ScanRel rr tok pm srest O2 := by
  induction h with
  | nil => exact Or.inl rfl
  | skip hm hrel ih =>
    rename_i prevv cc restv Ov
    rcases ih with heq | ⟨g, sTail, pm, srest, O2, mseg, h1, h2, hd, h3, h4, h5⟩
    · exact Or.inl (by rw [heq])
    · refine Or.inr ⟨cc :: g, sTail, pm, srest, O2, mseg, ?_, ?_, ?_, h3, h4, h5⟩
      · rw [h1]; rfl
      · rw [h2]; rfl
      · rw [ctxAfter_cons]; exact hd
  | mtc hd hsp hne hrel _ =>
    exact Or.inr ⟨[], _, _, _, _, _, rfl, rfl, hd, hsp, hne, hrel⟩

/-- A nonempty suffix of `l ++ [a]` contains `a`. -/
theorem suffix_concat_mem {t l : List Char} {a : Char} (hne : t ≠ [])
    (hsuf : t <:+ (l ++ [a])) : a ∈ t := by
  obtain ⟨pre, hpre⟩ := hsuf
  have h1 : t.getLast? = some a := by
    have h2 : (pre ++ t).getLast? = some a := by
      rw [hpre]; exact List.getLast?_concat l
    rwa [List.getLast?_append_of_ne_nil pre hne] at h2
  exact List.mem_of_mem_getLast? h1

/-- No rule matches starting inside a replacement token: a match confined to
the token has no witness character, and a match escaping the token would
have to consume the closing bracket. -/
theorem no_deriv_in_token {re : RE} (rf : RuleFacts re) {tok : List Char}
    (tf : TokenFacts tok) :
    ∀ (t O2 : List Char) (pc p2 : Option Char) (r2 : List Char),
      t ≠ [] → t <:+ tok → ¬ Deriv re pc (t ++ O2) p2 r2 := by
  intro t O2 pc p2 r2 hne hsuf hD
  obtain ⟨uW, huW, cW, hcW, hW⟩ := rf.witness hD
  obtain ⟨uB, huB, hB⟩ := hD.prefix_sat noBrk rf.brackets
  have huu : uW = uB := List.append_cancel_right (huW.symm.trans huB)
  subst huu
  by_cases hlen : uW.length ≤ t.length
  · have hO2r2 : O2.length ≤ r2.length := by
      have h3 := congrArg List.length huW
      simp only [List.length_append] at h3
      omega
    obtain ⟨w1, _, ht⟩ := append_decomp uW t O2 r2 huW hO2r2
    have hmem : cW ∈ tok := hsuf.subset (ht ▸ List.mem_append.mpr (Or.inl hcW))
    rw [tf.noW cW hmem] at hW
    cases hW
  · obtain ⟨mid, htok⟩ := tf.shape
    have hbr : ']' ∈ t := by
      rw [htok] at hsuf
      exact suffix_concat_mem hne hsuf
    have hrO2 : r2.length ≤ O2.length := by
      have h3 := congrArg List.length huW
      simp only [List.length_append] at h3
      omega
    obtain ⟨w1, _, hu⟩ := append_decomp t uW r2 O2 huW.symm hrO2
    have : ']' ∈ uW := hu ▸ List.mem_append.mpr (Or.inl hbr)
    have h4 := hB ']' this
    exact absurd h4 (by decide)

/-- `isWordChar '['` is false. -/
theorem headClass_token {tok O2 : List Char} (tf : TokenFacts tok) :
    headClass (tok ++ O2) = false := by
  obtain ⟨mid, htok⟩ := tf.shape
  rw [htok]
  show isWordChar '[' = false
  decide

/-- Pullback: a match of a rule `re` at the start of a scan's output pulls
back to a match of `re` at the start of the scan's input. -/
theorem rel_pullback {rr re : RE} (rfN : RuleFacts re) (rfR : RuleFacts rr)
    {tok : List Char} (tf : TokenFacts tok)
    {prevS : Option Char} {sIn OOut : List Char}
    (hrel : ScanRel rr tok prevS sIn OOut) :
    ∀ {prevB : Option Char} {p2 : Option Char} {r2 : List Char},
      classOfOpt prevB = classOfOpt prevS →
      Deriv re prevB OOut p2 r2 → ∃ p2B r2B, Deriv re prevS sIn p2B r2B := by
  intro prevB p2 r2 hcls hD
  rcases rel_view hrel with heq | hview
  · subst heq
    obtain ⟨p2B, hd⟩ := hD.ctx_transfer prevS hcls.symm
    exact ⟨p2B, r2, hd⟩
  obtain ⟨g, sTail, pm, srest, O2, mseg, h1, h2, hdR, h3, h4, h5⟩ := hview
  subst h1
  subst h2
  obtain ⟨uB, huB, hB⟩ := hD.prefix_sat noBrk rfN.brackets
  obtain ⟨mid, htok⟩ := tf.shape
  have hlenB : uB.length ≤ g.length := by
    by_contra hgt
    push_neg at hgt
    have hr2len : r2.length ≤ (tok ++ O2).length := by
      have h6 := congrArg List.length huB
      simp only [List.length_append] at h6 ⊢
      omega
    obtain ⟨w1, hv, hw⟩ := append_decomp g uB r2 (tok ++ O2) huB.symm hr2len
    cases w1 with
    | nil =>
      rw [List.append_nil] at hw
      rw [hw] at hgt
      exact Nat.lt_irrefl _ hgt
    | cons a w1t =>
      rw [htok] at hv
      have ha : '[' = a := by
        have h8 := congrArg List.headI hv
        simpa using h8
      have hmem : '[' ∈ uB := by
        rw [hw, ← ha]
        exact List.mem_append.mpr (Or.inr (List.mem_cons_self '[' w1t))
      exact absurd (hB '[' hmem) (by decide)
  obtain ⟨w1, hr2, hg⟩ := append_decomp uB g (tok ++ O2) r2 huB (by
    have h6 := congrArg List.length huB
    simp only [List.length_append] at h6 ⊢
    omega)
  by_cases hw1 : w1 = []
  · subst hw1
    rw [List.append_nil] at hg
    subst hg
    by_cases hc0 : headClass sTail = false
    · have hhead : ∀ _ : ([] : List Char) = [], headClass sTail = headClass (tok ++ O2) := by
        intro _
        rw [hc0, headClass_token tf]
      obtain ⟨p2B, _, hd⟩ := hD.transfer g [] (tok ++ O2) rfl
        (by simpa using hr2) (by simp) sTail prevS hcls.symm hhead
      exact ⟨p2B, _, by simpa using hd⟩
    · exfalso
      have hc0t : headClass sTail = true := by
        cases hq : headClass sTail
        · exact absurd hq hc0
        · rfl
      have hr2X : tok ++ O2 = r2 := List.append_cancel_left huB
      obtain ⟨uW, huW, cW, hcW, hWc⟩ := rfN.witness hD
      have huu : uW = g := List.append_cancel_right (huW.symm.trans huB)
      have hcWg : cW ∈ g := huu ▸ hcW
      have hgne : g ≠ [] := by
        intro hnil
        rw [hnil] at hcWg
        simp at hcWg
      rcases hD.pOut with ⟨_, hrest⟩ | ⟨ut, cl, hsplit2, hp2⟩
      · have h6 := congrArg List.length hrest
        have h7 := congrArg List.length hr2X
        simp only [List.length_append] at h6 h7
        exact hgne (List.eq_nil_of_length_eq_zero (by omega))
      · have hg2 : g = ut ++ [cl] := by
          apply List.append_cancel_right
          rw [hsplit2, hr2X]
          simp
        have htrail := rfN.trailing hD
        rw [atBoundary_eq, hp2] at htrail
        have hX : headClass r2 = false := by
          rw [← hr2X]
          exact headClass_token tf
        rw [hX] at htrail
        have hclw : isWordChar cl = true := by
          simpa [classOfOpt] using htrail
        have hlead := rfR.leading hdR
        rw [atBoundary_eq] at hlead
        have hctx : ctxAfter g prevS = some cl := by
          rw [hg2]
          exact ctxAfter_concat ut cl prevS
        rw [hctx, hc0t] at hlead
        simp [classOfOpt, hclw] at hlead
  · obtain ⟨p2B, _, hd⟩ := hD.transfer g w1 (tok ++ O2) rfl hr2
      (by
        have h6 := congrArg List.length (hg : g = uB ++ w1)
        simp only [List.length_append] at h6
        omega)
      sTail prevS hcls.symm (fun h => absurd h hw1)
    exact ⟨p2B, _, hd⟩

/-- Build cleanness of `tok ++ O2` from the token kills and cleanness of
`O2` in the context of the token's closing bracket. -/
theorem nomatch_token_append {re : RE} {tok O2 : List Char}
    (tf : TokenFacts tok)
    (tkill : ∀ (t : List Char) (pc p2 : Option Char) (r2 : List Char),
      t ≠ [] → t <:+ tok → ¬ Deriv re pc (t ++ O2) p2 r2)
    (hbot : NoMatchList re (some ']') O2) :
    ∀ prevB, NoMatchList re prevB (tok ++ O2) := by
  obtain ⟨mid, htok⟩ := tf.shape
  have main : ∀ t, t <:+ tok → ∀ pc, (t = [] → pc = some ']') →
      NoMatchList re pc (t ++ O2) := by
    intro t
    induction t with
    | nil =>
      intro _ pc hpc
      rw [hpc rfl]
      simpa using hbot
    | cons c t2 ih =>
      intro hsuf pc _
      refine ⟨fun p2 r2 hD => tkill (c :: t2) pc p2 r2 (by simp) hsuf hD, ?_⟩
      have hsuf2 : t2 <:+ tok := by
        obtain ⟨pre, hpre⟩ := hsuf
        exact ⟨pre ++ [c], by rw [← hpre]; simp⟩
      refine ih hsuf2 (some c) ?_
      intro ht2
      subst ht2
      have hm : ']' ∈ [c] := by
        rw [htok] at hsuf
        exact suffix_concat_mem (by simp) hsuf
      simp at hm
      rw [← hm]
  intro prevB
  exact main tok (List.suffix_refl tok) prevB
    (fun h => absurd h (by rw [htok]; simp))

/-- Cleanness of the scan output: the output of scanning rule `rr` contains
no match of rule `re` at any position, provided either `re` is the scanned
rule itself, or the input was already `re`-clean.  The output's head
character class is that of the input or non-word. -/
theorem rel_clean {rr re : RE} (rfN : RuleFacts re) (rfR : RuleFacts rr)
    {tok : List Char} (tf : TokenFacts tok) :
    ∀ {prevS : Option Char} {sIn OOut : List Char},
      ScanRel rr tok prevS sIn OOut →
      (re = rr ∨ NoMatchList re prevS sIn) →
      (∀ prevB, classOfOpt prevB = classOfOpt prevS →
        NoMatchList re prevB OOut) ∧
      (headClass OOut = headClass sIn ∨ headClass OOut = false) := by
  intro prevS sIn OOut hrel
  induction hrel with
  | nil =>
    intro _
    exact ⟨fun _ _ => trivial, Or.inl rfl⟩
  | skip hm hrel2 ih =>
    rename_i prevv cc restv Ov
    intro hin
    have hinTail : re = rr ∨ NoMatchList re (some cc) restv :=
      hin.imp id And.right
    obtain ⟨ihc, _⟩ := ih hinTail
    refine ⟨?_, Or.inl rfl⟩
    intro prevB hcls
    refine ⟨?_, ihc (some cc) rfl⟩
    intro p2 r2 hD
    obtain ⟨p2B, r2B, hD2⟩ :=
      rel_pullback rfN rfR tf (ScanRel.skip hm hrel2) hcls hD
    rcases hin with rfl | hnm
    · exact (mtch_complete hD2 accept0 (by simp [accept0])) hm
    · exact hnm.1 p2B r2B hD2
  | mtc hdR hsp hne hrel2 ih =>
    rename_i prevv sv pm srest mseg Ov
    intro hin
    have hpm : ∃ ut cl, mseg = ut ++ [cl] ∧ pm = some cl := by
      rcases hdR.pOut with ⟨hp, hs⟩ | ⟨ut, cl, hsplit2, hp2⟩
      · exfalso
        rw [hsp] at hs
        have h6 := congrArg List.length hs
        simp only [List.length_append] at h6
        exact hne (List.eq_nil_of_length_eq_zero (by omega))
      · refine ⟨ut, cl, ?_, hp2⟩
        apply List.append_cancel_right
        rw [← hsp, hsplit2]
        simp
    obtain ⟨ut, cl, hmseg, hpmeq⟩ := hpm
    have hinTail : re = rr ∨ NoMatchList re pm srest := by
      rcases hin with rfl | hnm
      · exact Or.inl rfl
      · right
        rw [hpmeq]
        have hnm2 : NoMatchList re prevv (mseg ++ srest) := by
          rw [← hsp]; exact hnm
        exact NoMatchList_drop mseg hnm2
          (by rw [hmseg]; exact List.getLast?_concat ut)
    obtain ⟨ihc, ihh⟩ := ih hinTail
    constructor
    · intro prevB _
      have hbot : NoMatchList re (some ']') Ov := by
        by_cases hpmc : classOfOpt pm = false
        · refine ihc (some ']') ?_
          rw [hpmc]
          decide
        · have hpmt : classOfOpt pm = true := by
            cases hq : classOfOpt pm
            · exact absurd hq hpmc
            · rfl
          have hb := rfR.trailing hdR
          rw [atBoundary_eq, hpmt] at hb
          have hsr : headClass srest = false := by
            cases hq : headClass srest
            · rfl
            · rw [hq] at hb; simp at hb
          have hOvh : headClass Ov = false := by
            rcases ihh with h | h
            · rw [h, hsr]
            · exact h
          cases hOv : Ov with
          | nil => trivial
          | cons d O3 =>
            refine ⟨?_, ?_⟩
            · intro p2 r2 hD
              have hl := rfN.leading hD
              rw [atBoundary_eq] at hl
              have hd2 : isWordChar d = false := by
                rw [hOv] at hOvh
                exact hOvh
              have hrb : isWordChar ']' = false := by decide
              simp [classOfOpt, headClass, hd2, hrb] at hl
            · have h9 := ihc pm rfl
              rw [hOv] at h9
              exact h9.2
      exact nomatch_token_append tf
        (fun t pc p2 r2 ht hsuf => no_deriv_in_token rfN tf t Ov pc p2 r2 ht hsuf)
        hbot prevB
    · right
      exact headClass_token tf

/-- The scan function realizes the scan relation (given enough fuel). -/
theorem scanSub_rel {rr : RE} (rf : RuleFacts rr) (tok : List Char) :
    ∀ (fuel : Nat) (s : List Char) (prev : Option Char), s.length ≤ fuel →
      ScanRel rr tok prev s (scanSub rr tok fuel prev s).2 := by
  intro fuel
  induction fuel with
  | zero =>
    intro s prev hlen
    have hs : s = [] := List.eq_nil_of_length_eq_zero (Nat.le_zero.mp hlen)
    subst hs
    exact ScanRel.nil
  | succ f ih =>
    intro s prev hlen
    cases s with
    | nil => exact ScanRel.nil
    | cons c rest =>
      cases hm : mtch rr prev (c :: rest) (fun _ _ => some 0) with
      | none =>
        have hout : (scanSub rr tok (f + 1) prev (c :: rest)).2
            = c :: (scanSub rr tok f (some c) rest).2 := by
          simp only [scanSub, hm]
        rw [hout]
        exact ScanRel.skip hm (ih rest (some c) (by simpa using hlen))
      | some n =>
        obtain ⟨u, p2, s2, m, hsplit, hlen2, hder, hk⟩ :=
          mtch_sound _ _ _ _ _ hm
        have hm0 : m = 0 := by
          have h0 : some (0 : Nat) = some m := hk
          simpa using h0.symm
        cases n with
        | zero =>
          exfalso
          have hu0 : u = [] := List.eq_nil_of_length_eq_zero (by omega)
          obtain ⟨uW, huW, cW, hcW, hWc⟩ := rf.witness hder
          have huu : uW = u :=
            List.append_cancel_right (huW.symm.trans hsplit)
          rw [huu, hu0] at hcW
          simp at hcW
        | succ n0 =>
          have hulen : u.length = n0 + 1 := by omega
          have htake : (c :: rest).take (n0 + 1) = u := by
            rw [hsplit, ← hulen]
            exact List.take_left u s2
          have hdrop : (c :: rest).drop (n0 + 1) = s2 := by
            rw [hsplit, ← hulen]
            exact List.drop_left u s2
          have hune : u ≠ [] := by
            intro h0
            rw [h0] at hulen
            simp at hulen
          obtain ⟨ut, cl, hu2, hp2⟩ :
              ∃ ut cl, u = ut ++ [cl] ∧ p2 = some cl := by
            rcases hder.pOut with ⟨hp, hs⟩ | ⟨ut2, cl2, hsplit2, hp22⟩
            · exfalso
              rw [hsplit] at hs
              have h6 := congrArg List.length hs
              simp only [List.length_append] at h6
              exact hune (List.eq_nil_of_length_eq_zero (by omega))
            · refine ⟨ut2, cl2, ?_, hp22⟩
              apply List.append_cancel_right
              rw [← hsplit, hsplit2]
              simp
          have hgl : ((c :: rest).take (n0 + 1)).getLast? = p2 := by
            rw [htake, hu2, hp2]
            exact List.getLast?_concat ut
          have hcond : s2.length ≤ f := by
            have h6 := congrArg List.length hsplit
            simp only [List.length_cons, List.length_append] at h6
            simp only [List.length_cons] at hlen
            omega
          have hout : (scanSub rr tok (f + 1) prev (c :: rest)).2
              = tok ++ (scanSub rr tok f p2 s2).2 := by
            simp only [scanSub, hm]
            rw [hgl, hdrop]
          rw [hout]
          exact ScanRel.mtc hder hsplit hune (ih s2 p2 hcond)

/-- Scanning a clean text is the identity and counts nothing. -/
theorem scanSub_clean {re : RE} (tok : List Char) :
    ∀ (fuel : Nat) (prev : Option Char) (s : List Char),
      NoMatchList re prev s → scanSub re tok fuel prev s = (0, s) := by
  intro fuel
  induction fuel with
  | zero => intro prev s _; cases s <;> rfl
  | succ f ih =>
    intro prev s h
    cases s with
    | nil => rfl
    | cons c rest =>
      have hm : mtch re prev (c :: rest) (fun _ _ => some 0) = none := by
        cases hq : mtch re prev (c :: rest) (fun _ _ => some 0) with
        | none => rfl
        | some n =>
          exfalso
          obtain ⟨u, p2, s2, m, _, _, hder, _⟩ := mtch_sound _ _ _ _ _ hq
          exact h.1 p2 s2 hder
      simp only [scanSub, hm]
      rw [ih (some c) rest h.2]

/-- The output of one rule's substitution pass is clean for a rule `rN` that
is either the scanned rule itself or was already clean on the input. -/
theorem subBy_clean {rS rN : Rule} (rfS : RuleFacts rS.pattern)
    (rfN : RuleFacts rN.pattern) (tf : TokenFacts rS.token) (t : List Char)
    (hin : rN.pattern = rS.pattern ∨ NoMatchList rN.pattern none t) :
    NoMatchList rN.pattern none (subBy rS t) := by
  have hrel := scanSub_rel rfS rS.token t.length t none (Nat.le_refl _)
  exact ((rel_clean rfN rfS tf hrel hin).1) none rfl

/-- The content component of the rule pipeline is the fold of the per-rule
substitutions. -/
theorem applyRules_content :
    ∀ (rules : List Rule) (s : List Char) (acc : RemovedItems),
      (applyRules rules (s, acc)).1 =
        rules.foldl (fun t r => subBy r t) s := by
  intro rules
  induction rules with
  | nil => intro s acc; rfl
  | cons r rest ih =>
    intro s acc
    simp only [applyRules, List.foldl_cons]
    exact ih (subBy r s) _

/-- Applying the rules to a text that is clean for all of them leaves the
text unchanged and records zero for every touched category. -/
theorem applyRules_clean :
    ∀ (rules : List Rule) (s : List Char) (acc : RemovedItems),
      (∀ r ∈ rules, NoMatchList r.pattern none s) →
      applyRules rules (s, acc) =
        (s, rules.foldl (fun a r => a.set r.category 0) acc) := by
  intro rules
  induction rules with
  | nil => intro s acc _; rfl
  | cons r rest ih =>
    intro s acc h
    have hscan : scanSub r.pattern r.token s.length none s = (0, s) :=
      scanSub_clean r.token s.length none s (h r (by simp))
    have hstep : applyRule s acc r = (s, acc.set r.category 0) := by
      simp only [applyRule, hscan]
    simp only [applyRules, hstep, List.foldl_cons]
    exact ih s _ (fun r2 hr2 => h r2 (List.mem_cons_of_mem r hr2))

/-- After folding all rule substitutions over a text, the result is clean
for every rule that either appears in the list or was already clean. -/
theorem fold_clean_aux :
    ∀ (rules : List Rule) (s : List Char) (re : Rule),
      RuleFacts re.pattern →
      (∀ r ∈ rules, RuleFacts r.pattern ∧ TokenFacts r.token) →
      (re ∈ rules ∨ NoMatchList re.pattern none s) →
      NoMatchList re.pattern none
        (rules.foldl (fun t rr => subBy rr t) s) := by
  intro rules
  induction rules with
  | nil =>
    intro s re _ _ hin
    rcases hin with h | h
    · exact absurd h (by simp)
    · simpa using h
  | cons r0 rest ih =>
    intro s re hre hf hin
    simp only [List.foldl_cons]
    apply ih (subBy r0 s) re hre (fun r hr => hf r (List.mem_cons_of_mem _ hr))
    rcases hin with hmem | hcl
    · rcases List.mem_cons.mp hmem with rfl | hmem2
      · exact Or.inr (subBy_clean (hf re (by simp)).1 hre (hf re (by simp)).2 s
          (Or.inl rfl))
      · exact Or.inl hmem2
    · exact Or.inr (subBy_clean (hf r0 (by simp)).1 hre (hf r0 (by simp)).2 s
        (Or.inr hcl))

/-- Re-sanitizing at the same level removes nothing: the level's pattern
pipeline leaves its own output unchanged with all counts zero, provided the
level's rules carry the rule and token facts. -/
theorem resanitize_level (T : List Char) (lv : String)
    (hf : ∀ r ∈ patternsFor lv, RuleFacts r.pattern ∧ TokenFacts r.token)
    (hz : (patternsFor lv).foldl (fun a r => a.set r.category 0)
      ({} : RemovedItems) = ⟨0, 0, 0, 0, 0, 0⟩) :
    (sanitizeContent (sanitizeContent T lv).content lv).info.removed_items
        = ⟨0, 0, 0, 0, 0, 0⟩ ∧
      (sanitizeContent (sanitizeContent T lv).content lv).content
        = (sanitizeContent T lv).content := by
  have hcontent : (sanitizeContent T lv).content =
      (patternsFor lv).foldl (fun t rr => subBy rr t) T :=
    applyRules_content (patternsFor lv) T {}
  have hall : ∀ r ∈ patternsFor lv,
      NoMatchList r.pattern none ((sanitizeContent T lv).content) := by
    intro r hr
    rw [hcontent]
    exact fold_clean_aux (patternsFor lv) T r (hf r hr).1 hf (Or.inl hr)
  have happ := applyRules_clean (patternsFor lv)
    ((sanitizeContent T lv).content) {} hall
  constructor
  · show (applyRules (patternsFor lv)
      ((sanitizeContent T lv).content, {})).2 = _
    rw [happ]
    exact hz
  · show (applyRules (patternsFor lv)
      ((sanitizeContent T lv).content, {})).1 = _
    rw [happ]

/-- Every rule in every level's pattern list satisfies the rule facts and
token facts needed for the idempotence argument. -/
theorem patternsFor_facts (lv : String) :
    ∀ r ∈ patternsFor lv, RuleFacts r.pattern ∧ TokenFacts r.token := by
  intro r hr
  by_cases hl : lv = "low"
  · rw [patternsFor, if_pos hl] at hr
    rcases List.mem_cons.mp hr with rfl | hr
    · exact ⟨creditCard_facts, creditTok_facts⟩
    rcases List.mem_cons.mp hr with rfl | hr
    · exact ⟨phone_facts, phoneTok_facts⟩
    · exact absurd hr (by simp)
  by_cases hm : lv = "medium"
  · rw [patternsFor, if_neg hl, if_pos hm] at hr
    rcases List.mem_cons.mp hr with rfl | hr
    · exact ⟨email_facts, emailTok_facts⟩
    rcases List.mem_cons.mp hr with rfl | hr
    · exact ⟨phone_facts, phoneTok_facts⟩
    rcases List.mem_cons.mp hr with rfl | hr
    · exact ⟨creditCard_facts, creditTok_facts⟩
    · exact absurd hr (by simp)
  by_cases hh : lv = "high"
  · rw [patternsFor, if_neg hl, if_neg hm, if_pos hh] at hr
    rcases List.mem_cons.mp hr with rfl | hr
    · exact ⟨email_facts, emailTok_facts⟩
    rcases List.mem_cons.mp hr with rfl | hr
    · exact ⟨phone_facts, phoneTok_facts⟩
    rcases List.mem_cons.mp hr with rfl | hr
    · exact ⟨creditCard_facts, creditTok_facts⟩
    rcases List.mem_cons.mp hr with rfl | hr
    · exact ⟨ssn_facts, ssnTok_facts⟩
    rcases List.mem_cons.mp hr with rfl | hr
    · exact ⟨name_facts, nameTok_facts⟩
    rcases List.mem_cons.mp hr with rfl | hr
    · exact ⟨address_facts, addressTok_facts⟩
    · exact absurd hr (by simp)
  · rw [patternsFor, if_neg hl, if_neg hm, if_neg hh] at hr
    exact absurd hr (by simp)

/-- C7: sanitization is idempotent — re-sanitizing already sanitized content
at the same level removes nothing further (all removal counts are zero) and
leaves the content unchanged, for every input text and every level. -/
theorem c7_sanitize_idempotent (T : List Char) (level : String) :
    (sanitizeContent (sanitizeContent T level).content level).info.removed_items
        = ⟨0, 0, 0, 0, 0, 0⟩ ∧
      (sanitizeContent (sanitizeContent T level).content level).content
        = (sanitizeContent T level).content := by
  by_cases hl : level = "low"
  · subst hl
    exact resanitize_level T "low" (patternsFor_facts "low") rfl
  by_cases hm : level = "medium"
  · subst hm
    exact resanitize_level T "medium" (patternsFor_facts "medium") rfl
  by_cases hh : level = "high"
  · subst hh
    exact resanitize_level T "high" (patternsFor_facts "high") rfl
  · have hp : patternsFor level = [] := by
      rw [patternsFor, if_neg hl, if_neg hm, if_neg hh]
    have hx : ∀ X : List Char,
        sanitizeContent X level = ⟨X, ⟨level, X.length, X.length, {}⟩⟩ := by
      intro X
      rw [sanitizeContent, hp]
      rfl
    simp only [hx]
    trivial

end DocAnalyzer
